import Mathlib

/-!
Verification of the station-uptime calculator (`src/station_uptime.py`).

The Python module is shallowly embedded below:
* `ChargerReport`, `Calculator` mirror the two classes' data;
* `sortReports`, `processDown`, `processReport`, `reconcile` embed the
  per-charger reconciliation loop of `calculate_station_uptime`;
* `sortIntervals`, `mergeAux`, `_merge_intervals` embed `_merge_intervals`;
* `stationResult`, `calculate_station_uptime` embed the per-station
  computation and the method itself;
* `parse_input_file` embeds the parser, with the file contents modelled
  post-I/O as `Option (List String)` (`none` = unreadable file);
* Python's float arithmetic (`total_up_time / total_time * 100`) is modelled
  exactly by `fl`/`floatPct`: IEEE-754 binary64 round-to-nearest-even on
  exact rationals, with unbounded exponent range (Python ints are unbounded;
  overflow/subnormal thresholds are never reached by the values at stake).

Python integers are embedded as `ℤ`.  Python's `sorted` is a stable sort by
key; a stable sort by a total preorder is a unique function, computed here by
`List.insertionSort` on the corresponding key order.
-/

set_option maxHeartbeats 1000000

namespace StationUptime

/-- Embedding of class `ChargerReport` (src/station_uptime.py lines 4-13). -/
structure ChargerReport where
  charger_id : ℤ
  start_time : ℤ
  end_time   : ℤ
  is_up      : Bool
deriving DecidableEq

/-- The key order of line 134-135: Python's `sorted` with key
`(x.start_time, not x.is_up)`.  In Python `False < True`, and for an up
report the second key component `not is_up` is `False`, so at equal start
times an `is_up = True` report sorts BEFORE an `is_up = False` one. -/
def reportLE (r₁ r₂ : ChargerReport) : Prop :=
  r₁.start_time < r₂.start_time ∨
    (r₁.start_time = r₂.start_time ∧ (r₁.is_up = true ∨ r₂.is_up = false))

instance : DecidableRel reportLE := fun r₁ r₂ => by unfold reportLE; infer_instance

/-- Line 134-135: `sorted(self.charger_reports[charger_id], key=...)`.
Stable sort by `reportLE`. -/
def sortReports (l : List ChargerReport) : List ChargerReport :=
  l.insertionSort reportLE

/-- Modelled from the spec (§4.1) and from the comment at line 133 of the
source ("with down reports processed before up reports"): the tie-break both
prescribe, namely at equal `start_time` a down report sorts BEFORE an up
report.  Used only to exhibit the divergence from the code's actual order. -/
def reportLEdownFirst (r₁ r₂ : ChargerReport) : Prop :=
  r₁.start_time < r₂.start_time ∨
    (r₁.start_time = r₂.start_time ∧ (r₁.is_up = false ∨ r₂.is_up = true))

instance : DecidableRel reportLEdownFirst := fun r₁ r₂ => by
  unfold reportLEdownFirst; infer_instance

/-- Modelled from the spec: stable sort with the down-before-up tie-break. -/
def sortReportsDownFirst (l : List ChargerReport) : List ChargerReport :=
  l.insertionSort reportLEdownFirst

/-- Lines 149-160: a single down report `(ds, de)` rebuilds the running list
`charger_intervals` into `new_intervals`, appending the surviving pieces of
each interval in order. -/
def processDown (ds de : ℤ) (ivs : List (ℤ × ℤ)) : List (ℤ × ℤ) :=
  ivs.foldl (fun acc iv =>
    if iv.2 ≤ ds ∨ iv.1 ≥ de then acc ++ [iv]
    else
      acc ++ (if iv.1 < ds then [(iv.1, ds)] else []) ++
        (if iv.2 > de then [(de, iv.2)] else []))
    []

/-- Lines 143-160: one iteration of `for r in reports`. -/
def processReport (ivs : List (ℤ × ℤ)) (r : ChargerReport) : List (ℤ × ℤ) :=
  if r.is_up then ivs ++ [(r.start_time, r.end_time)]
  else processDown r.start_time r.end_time ivs

/-- Lines 142-160: the charger reconciler, folding the (sorted) report list
over an initially empty running list of up-intervals. -/
def reconcile (reports : List ChargerReport) : List (ℤ × ℤ) :=
  reports.foldl processReport []

/-- Python tuple comparison `(a, b) <= (c, d)`: lexicographic order. -/
def tupLE (p q : ℤ × ℤ) : Prop :=
  p.1 < q.1 ∨ (p.1 = q.1 ∧ p.2 ≤ q.2)

instance : DecidableRel tupLE := fun p q => by unfold tupLE; infer_instance

/-- Line 97: `intervals.sort()` (Python's in-place stable sort on tuples). -/
def sortIntervals (l : List (ℤ × ℤ)) : List (ℤ × ℤ) :=
  l.insertionSort tupLE

/-- Lines 99-106: the merge loop.  `cur` plays the role of `merged[-1]`,
which the Python loop updates in place; completed intervals are emitted. -/
def mergeAux : ℤ × ℤ → List (ℤ × ℤ) → List (ℤ × ℤ)
  | cur, [] => [cur]
  | cur, iv :: rest =>
    if iv.1 ≤ cur.2 then mergeAux (cur.1, max cur.2 iv.2) rest
    else cur :: mergeAux iv rest

/-- `_merge_intervals` (lines 83-107). -/
def _merge_intervals (l : List (ℤ × ℤ)) : List (ℤ × ℤ) :=
  match sortIntervals l with
  | [] => []
  | h :: t => mergeAux h t

/-! ### Exact model of IEEE-754 binary64 arithmetic

Python evaluates `total_up_time / total_time` (int / int) as the true
rational quotient rounded to the nearest binary64 value (ties to even), then
`* 100` with another correct rounding, and `int(...)` truncates toward zero.
`fl` below is that rounding on exact rationals, with unbounded exponent
range. -/

/-- Fuel-based floor of the binary logarithm (kernel-reducible). -/
def log2Aux : ℕ → ℕ → ℕ
  | 0, _ => 0
  | fuel + 1, n => if n < 2 then 0 else log2Aux fuel (n / 2) + 1

/-- `natLog2 n` is the largest `k` with `2 ^ k ≤ n` (for `1 ≤ n`). -/
def natLog2 (n : ℕ) : ℕ := log2Aux n n

/-- The binary exponent of a positive rational: the unique `e` with
`2 ^ e ≤ q < 2 ^ (e + 1)`. -/
def floorLog2 (q : ℚ) : ℤ :=
  if 1 ≤ q then (natLog2 ⌊q⌋.toNat : ℤ)
  else
    let m := natLog2 ⌊q⁻¹⌋.toNat
    if q * 2 ^ m = 1 then -(m : ℤ) else -(m : ℤ) - 1

/-- Round a rational to the nearest integer, ties to even. -/
def rnde (q : ℚ) : ℤ :=
  if q - ⌊q⌋ < 1 / 2 then ⌊q⌋
  else if 1 / 2 < q - ⌊q⌋ then ⌊q⌋ + 1
  else if ⌊q⌋ % 2 = 0 then ⌊q⌋ else ⌊q⌋ + 1

/-- Round a positive rational to 53 significant bits, nearest, ties to
even: the binary64 rounding in the normal range. -/
def flPos (q : ℚ) : ℚ :=
  (rnde (q * 2 ^ ((52 : ℤ) - floorLog2 q)) : ℚ) * 2 ^ (floorLog2 q - 52)

/-- Binary64 rounding of an exact rational (unbounded exponent range). -/
def fl (q : ℚ) : ℚ :=
  if q = 0 then 0 else if q < 0 then -flPos (-q) else flPos q

/-- Python `int(...)` on a float: truncation toward zero. -/
def truncInt (q : ℚ) : ℤ :=
  if q < 0 then -⌊-q⌋ else ⌊q⌋

/-- Line 190: `int((total_up_time / total_time) * 100)` with binary64
semantics. -/
def floatPct (up total : ℤ) : ℤ :=
  truncInt (fl (fl ((up : ℚ) / (total : ℚ)) * 100))

/-! ### The calculator -/

/-- First-match association-list lookup; Python dict lookup (keys are unique
in a dict, and the parser keeps them unique). -/
def alookup {α : Type} : List (ℤ × α) → ℤ → Option α
  | [], _ => none
  | (k, v) :: rest, key => if k = key then some v else alookup rest key

/-- The two dictionaries of `StationUptimeCalculator` (lines 20-24), as
insertion-ordered association lists.  The set of charger ids of a station is
modelled as the list of distinct ids (the station result is invariant under
the iteration order of the Python set). -/
structure Calculator where
  station_chargers : List (ℤ × List ℤ)
  charger_reports  : List (ℤ × List ChargerReport)
deriving DecidableEq

/-- Lines 131-136, for one charger: `if charger_id in self.charger_reports`
then its reports, sorted (`sorted(...)` builds a fresh list); skipped when
absent or empty (`if reports:`). -/
def activeEntry (c : Calculator) (cid : ℤ) : Option (List ChargerReport) :=
  match alookup c.charger_reports cid with
  | none => none
  | some rs => if rs.isEmpty then none else some (sortReports rs)

/-- Lines 131-136: the member chargers that occur in `charger_reports` with a
nonempty report list, each contributing its freshly sorted report list. -/
def activeSorted (c : Calculator) (cids : List ℤ) : List (List ChargerReport) :=
  cids.filterMap (activeEntry c)

/-- Minimum of a nonempty integer list (0 on `[]`, which is never hit:
Python starts from `float('inf')` and only reads the minimum once
`has_reports` holds). -/
def listMin : List ℤ → ℤ
  | [] => 0
  | x :: xs => xs.foldl min x

/-- Maximum of a nonempty integer list (0 on `[]`, never hit). -/
def listMax : List ℤ → ℤ
  | [] => 0
  | x :: xs => xs.foldl max x

/-- All start times of the station's active reports (line 138). -/
def startsOf (act : List (List ChargerReport)) : List ℤ :=
  act.flatten.map (fun r => r.start_time)

/-- All end times of the station's active reports (line 139). -/
def endsOf (act : List (List ChargerReport)) : List ℤ :=
  act.flatten.map (fun r => r.end_time)

/-- Lines 142-163 and 179-182: every confirmed-up interval of every member
charger (`all_intervals`), in charger iteration order. -/
def stationIntervals (act : List (List ChargerReport)) : List (ℤ × ℤ) :=
  (act.map reconcile).flatten

/-- Line 188: `sum(end - start for start, end in merged_intervals)`. -/
def sumLengths (l : List (ℤ × ℤ)) : ℤ :=
  (l.map (fun iv => iv.2 - iv.1)).sum

/-- Lines 119-191: the per-station computation of `calculate_station_uptime`
for one station with member chargers `cids`.  `activeSorted c cids`,
`listMin (startsOf …)`, `listMax (endsOf …)` and `stationIntervals …` play
the roles of the loop's locals `reports`-per-charger, `min_time`, `max_time`
and `charger_up_intervals`/`all_intervals`. -/
def stationResult (c : Calculator) (cids : List ℤ) : ℤ :=
  if (activeSorted c cids).isEmpty then 0
  else if listMin (startsOf (activeSorted c cids))
      = listMax (endsOf (activeSorted c cids)) then
    if (stationIntervals (activeSorted c cids)).any (fun iv =>
        decide (iv.1 ≤ listMin (startsOf (activeSorted c cids))) &&
          decide (listMin (startsOf (activeSorted c cids)) ≤ iv.2)) then 100
    else 0
  else
    floatPct (sumLengths (_merge_intervals (stationIntervals (activeSorted c cids))))
      (listMax (endsOf (activeSorted c cids)) - listMin (startsOf (activeSorted c cids)))

/-- Line 119: `sorted(self.station_chargers.keys())`. -/
def sortedStationIds (c : Calculator) : List ℤ :=
  (c.station_chargers.map Prod.fst).insertionSort (fun a b => a ≤ b)

/-- `calculate_station_uptime` (lines 109-193). -/
def calculate_station_uptime (c : Calculator) : List (ℤ × ℤ) :=
  (sortedStationIds c).map (fun sid =>
    (sid, stationResult c ((alookup c.station_chargers sid).getD [])))

/-! ### The parser -/

/-- Python `line.split()`: split on whitespace runs, dropping empty pieces. -/
def splitWS (s : String) : List String :=
  (s.split (fun c => c.isWhitespace)).filter (fun t => t ≠ "")

/-- Digits to their value, most significant first. -/
def digitsToNat (l : List Char) : ℕ :=
  l.foldl (fun acc c => 10 * acc + (c.toNat - '0'.toNat)) 0

/-- Python `int(token)` on a whitespace-free token: an optional sign followed
by a nonempty run of decimal digits.  (CPython additionally accepts
underscore group separators and non-ASCII digits; such tokens are outside the
spec's integer fields and are not modelled.) -/
def parseIntToken (s : String) : Option ℤ :=
  match s.toList with
  | [] => none
  | '+' :: rest =>
    if rest ≠ [] ∧ rest.all Char.isDigit then some (digitsToNat rest : ℤ) else none
  | '-' :: rest =>
    if rest ≠ [] ∧ rest.all Char.isDigit then some (-(digitsToNat rest : ℤ)) else none
  | l => if l.all Char.isDigit then some (digitsToNat l : ℤ) else none

/-- Line 56: `self.station_chargers[station_id] = charger_ids` (dict
assignment replaces an existing binding). -/
def insertStation : List (ℤ × List ℤ) → ℤ → List ℤ → List (ℤ × List ℤ)
  | [], sid, cs => [(sid, cs)]
  | (k, v) :: rest, sid, cs =>
    if k = sid then (sid, cs) :: rest else (k, v) :: insertStation rest sid cs

/-- Lines 76-78: append a report to its charger's list, creating the
binding if absent. -/
def appendReport : List (ℤ × List ChargerReport) → ℤ → ChargerReport →
    List (ℤ × List ChargerReport)
  | [], cid, r => [(cid, [r])]
  | (k, v) :: rest, cid, r =>
    if k = cid then (k, v ++ [r]) :: rest else (k, v) :: appendReport rest cid r

/-- `map(int, parts)`: parse every token, failing on the first bad one
(`int(...)` raising `ValueError`). -/
def parseTokens : List String → Option (List ℤ)
  | [] => some []
  | t :: ts =>
    match parseIntToken t, parseTokens ts with
    | some v, some vs => some (v :: vs)
    | _, _ => none

/-- Lines 50-56: parse one nonblank station line. -/
def parseStationLine (line : String) : Except Unit (ℤ × List ℤ) :=
  if (splitWS line).length < 2 then Except.error ()
  else
    match parseTokens (splitWS line) with
    | none => Except.error ()
    | some ids =>
      match ids with
      | sid :: cs => Except.ok (sid, cs.dedup)
      | [] => Except.error ()

/-- Lines 60-75: parse one nonblank report line. -/
def parseReportLine (line : String) : Except Unit ChargerReport :=
  if (splitWS line).length ≠ 4 then Except.error ()
  else
    match parseIntToken ((splitWS line).getD 0 ""),
        parseIntToken ((splitWS line).getD 1 ""),
        parseIntToken ((splitWS line).getD 2 "") with
    | some cid, some s, some e =>
      if s > e then Except.error ()
      else Except.ok ⟨cid, s, e, ((splitWS line).getD 3 "").toLower == "true"⟩
    | _, _, _ => Except.error ()

/-- Lines 49-56: the stations loop, skipping blank lines. -/
def parseStations : List String → List (ℤ × List ℤ) → Except Unit (List (ℤ × List ℤ))
  | [], acc => Except.ok acc
  | line :: rest, acc =>
    if line.trim = "" then parseStations rest acc
    else
      match parseStationLine line with
      | Except.error _ => Except.error ()
      | Except.ok sc => parseStations rest (insertStation acc sc.1 sc.2)

/-- Lines 59-78: the reports loop, skipping blank lines. -/
def parseReports : List String → List (ℤ × List ChargerReport) →
    Except Unit (List (ℤ × List ChargerReport))
  | [], acc => Except.ok acc
  | line :: rest, acc =>
    if line.trim = "" then parseReports rest acc
    else
      match parseReportLine line with
      | Except.error _ => Except.error ()
      | Except.ok r => parseReports rest (appendReport acc r.charger_id r)

/-- The reports loop followed by construction of the calculator (`parse_input_file`
is split into three defs here; composed, they are lines 26-81).  The file is
modelled post-I/O: `none` stands for an unreadable file (`IOError`), `some lines`
for the result of `f.read().strip().split('\n')`.  All failure paths collapse to
the single error kind `Except.error ()`, matching the single re-raised
`ValueError`. -/
def withReports (rpLines : List String) (st : List (ℤ × List ℤ)) :
    Except Unit Calculator :=
  match parseReports rpLines [] with
  | Except.error _ => Except.error ()
  | Except.ok cr => Except.ok ⟨st, cr⟩

/-- Both section loops in order (lines 49-78), building the calculator. -/
def parseSections (stLines rpLines : List String) : Except Unit Calculator :=
  match parseStations stLines [] with
  | Except.error _ => Except.error ()
  | Except.ok st => withReports rpLines st

/-- Top level of `parse_input_file` (lines 36-46): locate the two section
markers with `content.index(...)`, then run both loops. -/
def parse_input_file : Option (List String) → Except Unit Calculator
  | none => Except.error ()
  | some content =>
    match content.findIdx? (fun l => l == "[Stations]"),
        content.findIdx? (fun l => l == "[Charger Availability Reports]") with
    | some ss, some rs =>
      parseSections ((content.drop (ss + 1)).take (rs - (ss + 1)))
        (content.drop (rs + 1))
    | _, _ => Except.error ()

/-- Modelled from the spec (§6, §7): a station line is acceptable when blank,
or when it has at least 2 whitespace-separated fields, all integers. -/
def goodStationLine (line : String) : Bool :=
  line.trim == "" ||
    (decide (2 ≤ (splitWS line).length) &&
      (splitWS line).all (fun t => (parseIntToken t).isSome))

/-- Modelled from the spec (§6, §7): a report line is acceptable when blank,
or when it has exactly 4 fields, the first three integers, with
`start_time ≤ end_time`. -/
def goodReportLine (line : String) : Bool :=
  line.trim == "" ||
    (decide ((splitWS line).length = 4) &&
      match parseIntToken ((splitWS line).getD 0 ""),
          parseIntToken ((splitWS line).getD 1 ""),
          parseIntToken ((splitWS line).getD 2 "") with
      | some _, some s, some e => decide (s ≤ e)
      | _, _, _ => false)

/-- Modelled from the spec (§6, §7): the file is readable, both section
markers are present, every line of the stations slice is a good station line
and every line after the reports marker is a good report line. -/
def structurallyValid : Option (List String) → Bool
  | none => false
  | some content =>
    match content.findIdx? (fun l => l == "[Stations]"),
        content.findIdx? (fun l => l == "[Charger Availability Reports]") with
    | some ss, some rs =>
      ((content.drop (ss + 1)).take (rs - (ss + 1))).all goodStationLine &&
        (content.drop (rs + 1)).all goodReportLine
    | _, _ => false

/-! ### State-passing form of `calculate_station_uptime`

The method reads `self.station_chargers` and `self.charger_reports` but
never assigns to them; the only in-place mutation in its call graph is
`intervals.sort()` inside `_merge_intervals`, whose argument is the
station-local list `all_intervals` (built fresh from `[]` by `extend`, line
180-182), and `sorted(...)` at line 134 returns a fresh list.  The
state-passing embedding below threads the calculator through the per-station
loop and additionally returns `_merge_intervals`'s mutated argument. -/

/-- `_merge_intervals` with its argument's final state (the list object is
sorted in place at line 97 before the merge loop). -/
def mergeIntervalsS (intervals : List (ℤ × ℤ)) :
    List (ℤ × ℤ) × List (ℤ × ℤ) :=
  match sortIntervals intervals with
  | [] => ([], sortIntervals intervals)
  | h :: t => (mergeAux h t, sortIntervals intervals)

/-- `calculate_station_uptime` as a state transformer: the per-station loop
threads the calculator state; every access to it is a read. -/
def calculateStationUptimeS (c : Calculator) : List (ℤ × ℤ) × Calculator :=
  (sortedStationIds c).foldl
    (fun acc sid =>
      (acc.1 ++ [(sid, stationResult acc.2 ((alookup acc.2.station_chargers sid).getD []))],
        acc.2))
    ([], c)

/-! ### Properties of the float model -/

lemma log2Aux_spec :
    ∀ fuel n : ℕ, 1 ≤ n → n ≤ fuel →
      2 ^ log2Aux fuel n ≤ n ∧ n < 2 ^ (log2Aux fuel n + 1) := by
  intro fuel
  induction fuel with
  | zero => intro n h1 h2; omega
  | succ f ih =>
    intro n h1 h2
    by_cases h : n < 2
    · have hz : log2Aux (f + 1) n = 0 := by rw [log2Aux]; simp [h]
      rw [hz]; constructor <;> simp <;> omega
    · have hrec : log2Aux (f + 1) n = log2Aux f (n / 2) + 1 := by
        rw [log2Aux]; simp [h]
      obtain ⟨a, b⟩ := ih (n / 2) (by omega) (by omega)
      rw [hrec]
      have e1 : 2 ^ (log2Aux f (n / 2) + 1) = 2 ^ log2Aux f (n / 2) * 2 :=
        pow_succ 2 _
      have e2 : 2 ^ (log2Aux f (n / 2) + 1 + 1) = 2 ^ (log2Aux f (n / 2) + 1) * 2 :=
        pow_succ 2 _
      rw [e2, e1]
      omega

lemma natLog2_spec {n : ℕ} (h : 1 ≤ n) :
    2 ^ natLog2 n ≤ n ∧ n < 2 ^ (natLog2 n + 1) :=
  log2Aux_spec n n h le_rfl

lemma floorLog2_spec (q : ℚ) (hq : 0 < q) :
    (2 : ℚ) ^ floorLog2 q ≤ q ∧ q < 2 ^ (floorLog2 q + 1) := by
  unfold floorLog2
  by_cases h1 : 1 ≤ q
  · rw [if_pos h1]
    have hfl : 1 ≤ ⌊q⌋ := Int.le_floor.mpr (by exact_mod_cast h1)
    have hn1 : 1 ≤ ⌊q⌋.toNat := by omega
    obtain ⟨a, b⟩ := natLog2_spec hn1
    have hcast : ((⌊q⌋.toNat : ℤ) : ℚ) = (⌊q⌋ : ℚ) := by
      exact_mod_cast Int.toNat_of_nonneg (show (0 : ℤ) ≤ ⌊q⌋ by omega)
    constructor
    · rw [zpow_natCast]
      calc ((2 : ℚ) ^ natLog2 ⌊q⌋.toNat) ≤ ((⌊q⌋.toNat : ℤ) : ℚ) := by
            exact_mod_cast a
        _ = (⌊q⌋ : ℚ) := hcast
        _ ≤ q := Int.floor_le q
    · have : ((natLog2 ⌊q⌋.toNat : ℤ) + 1) = ((natLog2 ⌊q⌋.toNat + 1 : ℕ) : ℤ) := by
        push_cast; ring
      rw [this, zpow_natCast]
      calc q < (⌊q⌋ : ℚ) + 1 := Int.lt_floor_add_one q
        _ = ((⌊q⌋.toNat : ℤ) : ℚ) + 1 := by rw [hcast]
        _ ≤ (2 : ℚ) ^ (natLog2 ⌊q⌋.toNat + 1) := by
            have : (⌊q⌋.toNat + 1 : ℕ) ≤ 2 ^ (natLog2 ⌊q⌋.toNat + 1) := b
            exact_mod_cast this
  · rw [if_neg h1]
    push_neg at h1
    have hr : 1 < q⁻¹ := one_lt_inv_iff₀.mpr ⟨hq, h1⟩
    have hrpos : 0 < q⁻¹ := by positivity
    have hfl : 1 ≤ ⌊q⁻¹⌋ := Int.le_floor.mpr (by exact_mod_cast hr.le)
    have hn1 : 1 ≤ ⌊q⁻¹⌋.toNat := by omega
    obtain ⟨a, b⟩ := natLog2_spec hn1
    have hcast : ((⌊q⁻¹⌋.toNat : ℤ) : ℚ) = (⌊q⁻¹⌋ : ℚ) := by
      exact_mod_cast Int.toNat_of_nonneg (show (0 : ℤ) ≤ ⌊q⁻¹⌋ by omega)
    set m := natLog2 ⌊q⁻¹⌋.toNat with hm
    have hlow : (2 : ℚ) ^ m ≤ q⁻¹ := by
      calc ((2 : ℚ) ^ m) ≤ ((⌊q⁻¹⌋.toNat : ℤ) : ℚ) := by exact_mod_cast a
        _ = (⌊q⁻¹⌋ : ℚ) := hcast
        _ ≤ q⁻¹ := Int.floor_le q⁻¹
    have hhigh : q⁻¹ < (2 : ℚ) ^ (m + 1) := by
      calc q⁻¹ < (⌊q⁻¹⌋ : ℚ) + 1 := Int.lt_floor_add_one q⁻¹
        _ = ((⌊q⁻¹⌋.toNat : ℤ) : ℚ) + 1 := by rw [hcast]
        _ ≤ (2 : ℚ) ^ (m + 1) := by
            have : (⌊q⁻¹⌋.toNat + 1 : ℕ) ≤ 2 ^ (m + 1) := b
            exact_mod_cast this
    have hpow_pos : (0 : ℚ) < 2 ^ m := by positivity
    have hpow1_pos : (0 : ℚ) < 2 ^ (m + 1) := by positivity
    by_cases hc : q * 2 ^ m = 1
    · rw [if_pos hc]
      have hqeq : q = (2 : ℚ) ^ (-(m : ℤ)) := by
        rw [zpow_neg, zpow_natCast]
        field_simp at hc ⊢
        linarith [hc]
      constructor
      · rw [hqeq]
      · rw [hqeq]
        apply zpow_lt_zpow_right₀ (by norm_num : (1 : ℚ) < 2)
        omega
    · rw [if_neg hc]
      have hstrict : (2 : ℚ) ^ m < q⁻¹ := by
        rcases lt_or_eq_of_le hlow with h | h
        · exact h
        · exfalso
          apply hc
          rw [h]
          exact mul_inv_cancel₀ (ne_of_gt hq)
      constructor
      · have e1 : (-(m : ℤ) - 1) = -((m + 1 : ℕ) : ℤ) := by push_cast; ring
        rw [e1, zpow_neg, zpow_natCast]
        have h2 := (inv_lt_inv₀ hpow1_pos hrpos).mpr hhigh
        rw [inv_inv] at h2
        exact h2.le
      · have e1 : (-(m : ℤ) - 1 + 1) = -((m : ℕ) : ℤ) := by push_cast; ring
        rw [e1, zpow_neg, zpow_natCast]
        have h2 := (inv_lt_inv₀ hrpos hpow_pos).mpr hstrict
        rw [inv_inv] at h2
        exact h2

lemma floorLog2_unique (q : ℚ) (e : ℤ) (h1 : (2 : ℚ) ^ e ≤ q) (h2 : q < 2 ^ (e + 1)) :
    floorLog2 q = e := by
  have hq : 0 < q := lt_of_lt_of_le (zpow_pos (by norm_num) e) h1
  obtain ⟨a, b⟩ := floorLog2_spec q hq
  by_contra hne
  rcases lt_or_gt_of_ne hne with hlt | hgt
  · have : (2 : ℚ) ^ (floorLog2 q + 1) ≤ 2 ^ e :=
      zpow_le_zpow_right₀ (by norm_num) (by omega)
    linarith
  · have : (2 : ℚ) ^ (e + 1) ≤ 2 ^ floorLog2 q :=
      zpow_le_zpow_right₀ (by norm_num) (by omega)
    linarith

lemma floorLog2_mono {x y : ℚ} (hx : 0 < x) (hxy : x ≤ y) :
    floorLog2 x ≤ floorLog2 y := by
  obtain ⟨a, b⟩ := floorLog2_spec x hx
  obtain ⟨c, d⟩ := floorLog2_spec y (lt_of_lt_of_le hx hxy)
  by_contra h
  push_neg at h
  have : (2 : ℚ) ^ (floorLog2 y + 1) ≤ 2 ^ floorLog2 x :=
    zpow_le_zpow_right₀ (by norm_num) (by omega)
  linarith

lemma floor_le_rnde (q : ℚ) : ⌊q⌋ ≤ rnde q := by
  unfold rnde
  split_ifs <;> omega

lemma rnde_le_floor_add_one (q : ℚ) : rnde q ≤ ⌊q⌋ + 1 := by
  unfold rnde
  split_ifs <;> omega

lemma rnde_intCast (n : ℤ) : rnde (n : ℚ) = n := by
  unfold rnde
  rw [Int.floor_intCast]
  have h0 : ((n : ℚ) - (n : ℚ)) < 1 / 2 := by norm_num
  rw [if_pos h0]

lemma rnde_mono {x y : ℚ} (h : x ≤ y) : rnde x ≤ rnde y := by
  rcases lt_or_ge ⌊x⌋ ⌊y⌋ with hf | hf
  · have h1 := rnde_le_floor_add_one x
    have h2 := floor_le_rnde y
    omega
  · have hfe : ⌊x⌋ = ⌊y⌋ := le_antisymm (Int.floor_le_floor h) hf
    unfold rnde
    rw [← hfe]
    have hx1 := Int.floor_le x
    have hx2 := Int.lt_floor_add_one x
    split_ifs <;> first | omega | linarith

lemma rnde_eq_low (q : ℚ) (f : ℤ) (h1 : (f : ℚ) ≤ q) (h2 : q < f + 1 / 2) :
    rnde q = f := by
  have hfloor : ⌊q⌋ = f := Int.floor_eq_iff.mpr ⟨h1, by linarith⟩
  unfold rnde
  rw [hfloor, if_pos (by rw [hfloor] at *; push_cast; linarith)]

lemma rnde_eq_high (q : ℚ) (f : ℤ) (h1 : (f : ℚ) - 1 / 2 < q) (h2 : q ≤ f) :
    rnde q = f := by
  rcases eq_or_lt_of_le h2 with he | hlt
  · subst he
    exact_mod_cast rnde_intCast f
  · have hfloor : ⌊q⌋ = f - 1 := by
      apply Int.floor_eq_iff.mpr
      constructor
      · push_cast; linarith
      · push_cast; linarith
    unfold rnde
    rw [hfloor]
    rw [if_neg (by push_cast; linarith), if_pos (by push_cast; linarith)]
    omega

/-- The rounded value is within a half of the exact one (used only through
the bound lemmas below). -/
lemma rnde_nonneg (q : ℚ) (h : 0 ≤ q) : 0 ≤ rnde q := by
  have h1 := floor_le_rnde q
  have h2 : 0 ≤ ⌊q⌋ := Int.le_floor.mpr (by exact_mod_cast h)
  omega

lemma flPos_nonneg (q : ℚ) (h : 0 ≤ q) : 0 ≤ flPos q := by
  unfold flPos
  apply mul_nonneg
  · have : 0 ≤ rnde (q * 2 ^ ((52 : ℤ) - floorLog2 q)) := by
      apply rnde_nonneg
      positivity
    exact_mod_cast this
  · positivity

lemma two_zpow_le_flPos (q : ℚ) (hq : 0 < q) : (2 : ℚ) ^ floorLog2 q ≤ flPos q := by
  obtain ⟨a, _⟩ := floorLog2_spec q hq
  unfold flPos
  set e := floorLog2 q with he
  have hz : (2 : ℚ) ^ ((52 : ℤ) - e) * 2 ^ (e - 52) = 1 := by
    rw [← zpow_add₀ (by norm_num : (2 : ℚ) ≠ 0)]
    norm_num
  have hlow : ((2 : ℚ) ^ (52 : ℤ)) ≤ q * 2 ^ ((52 : ℤ) - e) := by
    calc ((2 : ℚ) ^ (52 : ℤ)) = 2 ^ e * 2 ^ ((52 : ℤ) - e) := by
          rw [← zpow_add₀ (by norm_num : (2 : ℚ) ≠ 0)]; ring_nf
      _ ≤ q * 2 ^ ((52 : ℤ) - e) := by
          apply mul_le_mul_of_nonneg_right a
          positivity
  have hfl : (2 ^ 52 : ℤ) ≤ rnde (q * 2 ^ ((52 : ℤ) - e)) := by
    calc (2 ^ 52 : ℤ) ≤ ⌊q * 2 ^ ((52 : ℤ) - e)⌋ := by
          apply Int.le_floor.mpr
          calc (((2 ^ 52 : ℤ) : ℚ)) = (2 : ℚ) ^ (52 : ℤ) := by norm_num
            _ ≤ q * 2 ^ ((52 : ℤ) - e) := hlow
      _ ≤ rnde (q * 2 ^ ((52 : ℤ) - e)) := floor_le_rnde _
  calc (2 : ℚ) ^ e = (2 : ℚ) ^ (52 : ℤ) * 2 ^ (e - 52) := by
        rw [← zpow_add₀ (by norm_num : (2 : ℚ) ≠ 0)]; ring_nf
    _ ≤ (rnde (q * 2 ^ ((52 : ℤ) - e)) : ℚ) * 2 ^ (e - 52) := by
        apply mul_le_mul_of_nonneg_right _ (by positivity)
        calc ((2 : ℚ) ^ (52 : ℤ)) = (((2 ^ 52 : ℤ)) : ℚ) := by norm_num
          _ ≤ (rnde (q * 2 ^ ((52 : ℤ) - e)) : ℚ) := by exact_mod_cast hfl

lemma flPos_le_two_zpow (q : ℚ) (hq : 0 < q) :
    flPos q ≤ (2 : ℚ) ^ (floorLog2 q + 1) := by
  obtain ⟨_, b⟩ := floorLog2_spec q hq
  unfold flPos
  set e := floorLog2 q with he
  have hhigh : q * 2 ^ ((52 : ℤ) - e) < (2 : ℚ) ^ (53 : ℤ) := by
    calc q * 2 ^ ((52 : ℤ) - e) < 2 ^ (e + 1) * 2 ^ ((52 : ℤ) - e) := by
          apply mul_lt_mul_of_pos_right b
          positivity
      _ = (2 : ℚ) ^ (53 : ℤ) := by
          rw [← zpow_add₀ (by norm_num : (2 : ℚ) ≠ 0)]; ring_nf
  have hfl : rnde (q * 2 ^ ((52 : ℤ) - e)) ≤ 2 ^ 53 := by
    have h1 : ⌊q * 2 ^ ((52 : ℤ) - e)⌋ < 2 ^ 53 := by
      have : (⌊q * 2 ^ ((52 : ℤ) - e)⌋ : ℚ) < ((2 ^ 53 : ℤ) : ℚ) := by
        calc (⌊q * 2 ^ ((52 : ℤ) - e)⌋ : ℚ) ≤ q * 2 ^ ((52 : ℤ) - e) := Int.floor_le _
          _ < (2 : ℚ) ^ (53 : ℤ) := hhigh
          _ = ((2 ^ 53 : ℤ) : ℚ) := by norm_num
      exact_mod_cast this
    have h2 := rnde_le_floor_add_one (q * 2 ^ ((52 : ℤ) - e))
    omega
  calc (rnde (q * 2 ^ ((52 : ℤ) - e)) : ℚ) * 2 ^ (e - 52)
      ≤ ((2 ^ 53 : ℤ) : ℚ) * 2 ^ (e - 52) := by
        apply mul_le_mul_of_nonneg_right _ (by positivity)
        exact_mod_cast hfl
    _ = 2 ^ (e + 1) := by
        have : (((2 ^ 53 : ℤ)) : ℚ) = (2 : ℚ) ^ (53 : ℤ) := by norm_num
        rw [this, ← zpow_add₀ (by norm_num : (2 : ℚ) ≠ 0)]
        ring_nf

lemma flPos_mono {x y : ℚ} (hx : 0 < x) (h : x ≤ y) : flPos x ≤ flPos y := by
  have hy : 0 < y := lt_of_lt_of_le hx h
  rcases eq_or_lt_of_le (floorLog2_mono hx h) with he | hlt
  · unfold flPos
    rw [← he]
    apply mul_le_mul_of_nonneg_right _ (by positivity)
    have : rnde (x * 2 ^ ((52 : ℤ) - floorLog2 x)) ≤
        rnde (y * 2 ^ ((52 : ℤ) - floorLog2 x)) := by
      apply rnde_mono
      apply mul_le_mul_of_nonneg_right h
      positivity
    exact_mod_cast this
  · calc flPos x ≤ (2 : ℚ) ^ (floorLog2 x + 1) := flPos_le_two_zpow x hx
      _ ≤ (2 : ℚ) ^ floorLog2 y := zpow_le_zpow_right₀ (by norm_num) (by omega)
      _ ≤ flPos y := two_zpow_le_flPos y hy

lemma fl_zero : fl 0 = 0 := by unfold fl; simp

lemma fl_nonneg (q : ℚ) (h : 0 ≤ q) : 0 ≤ fl q := by
  unfold fl
  split_ifs with h1 h2
  · exact le_rfl
  · linarith
  · exact flPos_nonneg q h

lemma fl_mono {x y : ℚ} (hx : 0 ≤ x) (h : x ≤ y) : fl x ≤ fl y := by
  rcases eq_or_lt_of_le hx with he | hpos
  · rw [← he, fl_zero]
    exact fl_nonneg y (by linarith)
  · unfold fl
    rw [if_neg (by linarith), if_neg (by linarith),
      if_neg (by linarith), if_neg (by linarith)]
    exact flPos_mono hpos h

lemma flPos_one : flPos 1 = 1 := by
  have he : floorLog2 1 = 0 := floorLog2_unique 1 0 (by norm_num) (by norm_num)
  unfold flPos
  rw [he]
  have h1 : (1 : ℚ) * 2 ^ ((52 : ℤ) - 0) = ((2 ^ 52 : ℤ) : ℚ) := by norm_num
  rw [h1, rnde_intCast]
  norm_num

lemma fl_one : fl 1 = 1 := by
  unfold fl
  rw [if_neg (by norm_num), if_neg (by norm_num)]
  exact flPos_one

lemma flPos_hundred : flPos 100 = 100 := by
  have he : floorLog2 100 = 6 := by
    apply floorLog2_unique 100 6 <;> norm_num
  unfold flPos
  rw [he]
  have h1 : (100 : ℚ) * 2 ^ ((52 : ℤ) - 6) = ((100 * 2 ^ 46 : ℤ) : ℚ) := by norm_num
  rw [h1, rnde_intCast]
  norm_num

lemma fl_hundred : fl 100 = 100 := by
  unfold fl
  rw [if_neg (by norm_num), if_neg (by norm_num)]
  exact flPos_hundred

lemma truncInt_nonneg (q : ℚ) (h : 0 ≤ q) : 0 ≤ truncInt q := by
  unfold truncInt
  rw [if_neg (by linarith)]
  exact Int.le_floor.mpr (by exact_mod_cast h)

lemma truncInt_mono {x y : ℚ} (hx : 0 ≤ x) (h : x ≤ y) : truncInt x ≤ truncInt y := by
  unfold truncInt
  rw [if_neg (by linarith), if_neg (by linarith)]
  exact Int.floor_le_floor h

lemma truncInt_intCast (n : ℤ) (h : 0 ≤ n) : truncInt (n : ℚ) = n := by
  unfold truncInt
  have h0 : ¬((n : ℚ) < 0) := by
    push_neg
    exact_mod_cast h
  rw [if_neg h0, Int.floor_intCast]

lemma floatPct_nonneg (up total : ℤ) (h1 : 0 ≤ up) (h2 : 0 < total) :
    0 ≤ floatPct up total := by
  unfold floatPct
  apply truncInt_nonneg
  apply fl_nonneg
  apply mul_nonneg _ (by norm_num)
  apply fl_nonneg
  apply div_nonneg
  · exact_mod_cast h1
  · have : (0 : ℚ) < (total : ℚ) := by exact_mod_cast h2
    linarith

lemma floatPct_le_hundred (up total : ℤ) (h1 : 0 ≤ up) (h2 : up ≤ total)
    (h3 : 0 < total) : floatPct up total ≤ 100 := by
  unfold floatPct
  have htq : (0 : ℚ) < (total : ℚ) := by exact_mod_cast h3
  have hr1 : ((up : ℚ) / (total : ℚ)) ≤ 1 := (div_le_one htq).mpr (by exact_mod_cast h2)
  have hr0 : (0 : ℚ) ≤ (up : ℚ) / (total : ℚ) := by
    apply div_nonneg (by exact_mod_cast h1) (by linarith)
  have hf1 : fl ((up : ℚ) / (total : ℚ)) ≤ 1 := by
    calc fl ((up : ℚ) / (total : ℚ)) ≤ fl 1 := fl_mono hr0 hr1
      _ = 1 := fl_one
  have hf0 : 0 ≤ fl ((up : ℚ) / (total : ℚ)) := fl_nonneg _ hr0
  have hm : fl ((up : ℚ) / (total : ℚ)) * 100 ≤ 100 := by nlinarith
  have hm0 : 0 ≤ fl ((up : ℚ) / (total : ℚ)) * 100 := by positivity
  have hf2 : fl (fl ((up : ℚ) / (total : ℚ)) * 100) ≤ 100 := by
    calc fl (fl ((up : ℚ) / (total : ℚ)) * 100) ≤ fl 100 := fl_mono hm0 hm
      _ = 100 := fl_hundred
  calc truncInt (fl (fl ((up : ℚ) / (total : ℚ)) * 100))
      ≤ truncInt ((100 : ℤ) : ℚ) := by
        apply truncInt_mono (fl_nonneg _ hm0)
        exact_mod_cast hf2
    _ = 100 := truncInt_intCast 100 (by norm_num)

lemma floatPct_mono_up {a b total : ℤ} (ha : 0 ≤ a) (h : a ≤ b) (ht : 0 < total) :
    floatPct a total ≤ floatPct b total := by
  unfold floatPct
  have htq : (0 : ℚ) < (total : ℚ) := by exact_mod_cast ht
  have hr : ((a : ℚ) / (total : ℚ)) ≤ (b : ℚ) / (total : ℚ) := by
    gcongr
  have hr0 : (0 : ℚ) ≤ (a : ℚ) / (total : ℚ) :=
    div_nonneg (by exact_mod_cast ha) (by linarith)
  have hf : fl ((a : ℚ) / (total : ℚ)) ≤ fl ((b : ℚ) / (total : ℚ)) := fl_mono hr0 hr
  have hf0 : 0 ≤ fl ((a : ℚ) / (total : ℚ)) := fl_nonneg _ hr0
  apply truncInt_mono
  · exact fl_nonneg _ (by positivity)
  · apply fl_mono (by positivity)
    nlinarith

lemma floatPct_anti_total {up t₁ t₂ : ℤ} (hu : 0 ≤ up) (ht : 0 < t₁) (h : t₁ ≤ t₂) :
    floatPct up t₂ ≤ floatPct up t₁ := by
  unfold floatPct
  have h1 : (0 : ℚ) < (t₁ : ℚ) := by exact_mod_cast ht
  have h2 : (0 : ℚ) < (t₂ : ℚ) := by
    have : (0 : ℤ) < t₂ := by omega
    exact_mod_cast this
  have hr : ((up : ℚ) / (t₂ : ℚ)) ≤ (up : ℚ) / (t₁ : ℚ) := by
    apply div_le_div_of_nonneg_left (by exact_mod_cast hu) h1
    exact_mod_cast h
  have hr0 : (0 : ℚ) ≤ (up : ℚ) / (t₂ : ℚ) :=
    div_nonneg (by exact_mod_cast hu) (by linarith)
  have hf : fl ((up : ℚ) / (t₂ : ℚ)) ≤ fl ((up : ℚ) / (t₁ : ℚ)) := fl_mono hr0 hr
  have hf0 : 0 ≤ fl ((up : ℚ) / (t₂ : ℚ)) := fl_nonneg _ hr0
  apply truncInt_mono
  · exact fl_nonneg _ (by positivity)
  · apply fl_mono (by positivity)
    nlinarith

lemma floatPct_zero (total : ℤ) (h : total ≠ 0) : floatPct 0 total = 0 := by
  unfold floatPct
  have : ((0 : ℤ) : ℚ) / (total : ℚ) = 0 := by norm_num
  rw [this, fl_zero, zero_mul, fl_zero]
  exact truncInt_intCast 0 le_rfl

lemma floatPct_self (total : ℤ) (h : 0 < total) : floatPct total total = 100 := by
  unfold floatPct
  have htq : ((total : ℤ) : ℚ) ≠ 0 := by
    have : (0 : ℚ) < (total : ℚ) := by exact_mod_cast h
    linarith
  rw [div_self htq, fl_one, one_mul, fl_hundred]
  exact truncInt_intCast 100 (by norm_num)

/-- Concrete binary64 evaluation: `29/100` rounds to
`5224175567749775 · 2⁻⁵⁴` (= 0.28999999999999998…). -/
lemma fl_29_100 : fl (29 / 100 : ℚ) = 5224175567749775 / 2 ^ 54 := by
  unfold fl flPos
  rw [if_neg (by norm_num), if_neg (by norm_num)]
  have he : floorLog2 (29 / 100 : ℚ) = -2 := by
    apply floorLog2_unique <;> norm_num
  rw [he]
  have hr : rnde ((29 / 100 : ℚ) * 2 ^ ((52 : ℤ) - (-2))) = 5224175567749775 := by
    apply rnde_eq_low <;> norm_num
  rw [hr]
  norm_num

/-- Concrete binary64 evaluation of the second rounding for `up = 29`,
`total = 100`: the product with 100 rounds DOWN to
`8162774324609023 · 2⁻⁴⁸` = 28.999999999999996…, strictly below 29. -/
lemma fl_29_100_mul : fl ((5224175567749775 / 2 ^ 54 : ℚ) * 100) = 8162774324609023 / 2 ^ 48 := by
  have harg : ((5224175567749775 / 2 ^ 54 : ℚ) * 100) = 522417556774977500 / 2 ^ 54 := by
    norm_num
  rw [harg]
  unfold fl flPos
  rw [if_neg (by norm_num), if_neg (by norm_num)]
  have he : floorLog2 (522417556774977500 / 2 ^ 54 : ℚ) = 4 := by
    apply floorLog2_unique <;> norm_num
  rw [he]
  have hr : rnde ((522417556774977500 / 2 ^ 54 : ℚ) * 2 ^ ((52 : ℤ) - 4)) =
      8162774324609023 := by
    apply rnde_eq_low <;> norm_num
  rw [hr]
  norm_num

/-- The float computation at `up = 29`, `total = 100` yields 28, one below
the exact floor `⌊100·29/100⌋ = 29`. -/
lemma floatPct_29_100 : floatPct 29 100 = 28 := by
  unfold floatPct
  have hcast : ((29 : ℤ) : ℚ) / ((100 : ℤ) : ℚ) = 29 / 100 := by norm_num
  rw [hcast, fl_29_100, fl_29_100_mul]
  unfold truncInt
  rw [if_neg (by norm_num)]
  rw [Int.floor_eq_iff] <;> norm_num

/-- Concrete binary64 evaluation: `20/100` rounds up to
`7205759403792794 · 2⁻⁵⁵` (= 0.20000000000000001…). -/
lemma fl_20_100 : fl (20 / 100 : ℚ) = 7205759403792794 / 2 ^ 55 := by
  unfold fl flPos
  rw [if_neg (by norm_num), if_neg (by norm_num)]
  have he : floorLog2 (20 / 100 : ℚ) = -3 := by
    apply floorLog2_unique <;> norm_num
  rw [he]
  have hr : rnde ((20 / 100 : ℚ) * 2 ^ ((52 : ℤ) - (-3))) = 7205759403792794 := by
    apply rnde_eq_high <;> norm_num
  rw [hr]
  norm_num

/-- The second rounding for `up = 20`, `total = 100` lands exactly on 20. -/
lemma fl_20_100_mul : fl ((7205759403792794 / 2 ^ 55 : ℚ) * 100) = 20 := by
  have harg : ((7205759403792794 / 2 ^ 55 : ℚ) * 100) = 720575940379279400 / 2 ^ 55 := by
    norm_num
  rw [harg]
  unfold fl flPos
  rw [if_neg (by norm_num), if_neg (by norm_num)]
  have he : floorLog2 (720575940379279400 / 2 ^ 55 : ℚ) = 4 := by
    apply floorLog2_unique <;> norm_num
  rw [he]
  have hr : rnde ((720575940379279400 / 2 ^ 55 : ℚ) * 2 ^ ((52 : ℤ) - 4)) =
      5629499534213120 := by
    apply rnde_eq_low <;> norm_num
  rw [hr]
  norm_num

/-- The float computation at `up = 20`, `total = 100` yields 20. -/
lemma floatPct_20_100 : floatPct 20 100 = 20 := by
  unfold floatPct
  have hcast : ((20 : ℤ) : ℚ) / ((100 : ℤ) : ℚ) = 20 / 100 := by norm_num
  rw [hcast, fl_20_100, fl_20_100_mul]
  exact truncInt_intCast 20 (by norm_num)

/-! ### The down-report transformation, elementwise -/

/-- The pieces of one interval that survive the down window `[ds, de]`:
the claim's per-interval case analysis. -/
def downPieces (ds de : ℤ) (iv : ℤ × ℤ) : List (ℤ × ℤ) :=
  if iv.2 ≤ ds ∨ iv.1 ≥ de then [iv]
  else
    (if iv.1 < ds then [(iv.1, ds)] else []) ++
      (if iv.2 > de then [(de, iv.2)] else [])

lemma processDown_go (ds de : ℤ) :
    ∀ (ivs : List (ℤ × ℤ)) (acc : List (ℤ × ℤ)),
      ivs.foldl
        (fun acc iv =>
          if iv.2 ≤ ds ∨ iv.1 ≥ de then acc ++ [iv]
          else
            acc ++ (if iv.1 < ds then [(iv.1, ds)] else []) ++
              (if iv.2 > de then [(de, iv.2)] else []))
        acc
      = acc ++ (ivs.map (downPieces ds de)).flatten := by
  intro ivs
  induction ivs with
  | nil => intro acc; simp
  | cons iv rest ih =>
    intro acc
    rw [List.foldl_cons, ih, List.map_cons, List.flatten_cons]
    unfold downPieces
    split_ifs <;> simp

lemma processDown_eq (ds de : ℤ) (ivs : List (ℤ × ℤ)) :
    processDown ds de ivs = (ivs.map (downPieces ds de)).flatten := by
  unfold processDown
  rw [processDown_go]
  simp

/-! ### Coverage: the integer unit cells `[k, k+1)` inside the intervals -/

/-- `covers ivs k` holds when the unit cell `[k, k+1)` lies inside some
interval of `ivs`. -/
def covers (ivs : List (ℤ × ℤ)) (k : ℤ) : Prop :=
  ∃ iv ∈ ivs, iv.1 ≤ k ∧ k < iv.2

instance coversDecidable (ivs : List (ℤ × ℤ)) (k : ℤ) : Decidable (covers ivs k) := by
  unfold covers
  exact List.decidableBEx _ ivs

lemma covers_nil {k : ℤ} : ¬ covers [] k := by
  rintro ⟨iv, h, _⟩
  simp at h

lemma covers_cons {iv : ℤ × ℤ} {l : List (ℤ × ℤ)} {k : ℤ} :
    covers (iv :: l) k ↔ (iv.1 ≤ k ∧ k < iv.2) ∨ covers l k := by
  unfold covers
  constructor
  · rintro ⟨x, hx, h⟩
    rcases List.mem_cons.mp hx with h1 | h1
    · subst h1; exact Or.inl h
    · exact Or.inr ⟨x, h1, h⟩
  · rintro (h | ⟨x, hx, h⟩)
    · exact ⟨iv, List.mem_cons_self iv l, h⟩
    · exact ⟨x, List.mem_cons_of_mem iv hx, h⟩

lemma covers_append {A B : List (ℤ × ℤ)} {k : ℤ} :
    covers (A ++ B) k ↔ covers A k ∨ covers B k := by
  unfold covers
  constructor
  · rintro ⟨iv, hm, h⟩
    rcases List.mem_append.mp hm with h1 | h1
    · exact Or.inl ⟨iv, h1, h⟩
    · exact Or.inr ⟨iv, h1, h⟩
  · rintro (⟨iv, h1, h⟩ | ⟨iv, h1, h⟩)
    · exact ⟨iv, List.mem_append.mpr (Or.inl h1), h⟩
    · exact ⟨iv, List.mem_append.mpr (Or.inr h1), h⟩

lemma covers_of_perm {A B : List (ℤ × ℤ)} (h : A.Perm B) {k : ℤ} :
    covers A k ↔ covers B k := by
  unfold covers
  constructor
  · rintro ⟨iv, hm, hk⟩
    exact ⟨iv, h.mem_iff.mp hm, hk⟩
  · rintro ⟨iv, hm, hk⟩
    exact ⟨iv, h.mem_iff.mpr hm, hk⟩

lemma covers_downPieces {ds de k : ℤ} {iv : ℤ × ℤ} :
    covers (downPieces ds de iv) k ↔
      (iv.1 ≤ k ∧ k < iv.2) ∧ ¬(ds ≤ k ∧ k < de) := by
  unfold downPieces
  split_ifs with h1 h2 h3 h4 <;>
    simp only [covers_append, covers_cons, covers_nil, or_false, false_or,
      false_iff] <;>
    omega

/-- Coverage semantics of a down report: it removes exactly the cells of the
window `[ds, de)`. -/
lemma covers_processDown {ds de : ℤ} {ivs : List (ℤ × ℤ)} {k : ℤ} :
    covers (processDown ds de ivs) k ↔ covers ivs k ∧ ¬(ds ≤ k ∧ k < de) := by
  rw [processDown_eq]
  induction ivs with
  | nil => simp [covers_nil]
  | cons iv rest ih =>
    rw [List.map_cons, List.flatten_cons, covers_append, covers_cons, ih,
      covers_downPieces]
    tauto

lemma covers_processReport_mono {A B : List (ℤ × ℤ)} (r : ChargerReport)
    (h : ∀ k, covers A k → covers B k) :
    ∀ k, covers (processReport A r) k → covers (processReport B r) k := by
  intro k
  unfold processReport
  split_ifs with hup
  · intro hc
    rcases covers_append.mp hc with h1 | h1
    · exact covers_append.mpr (Or.inl (h k h1))
    · exact covers_append.mpr (Or.inr h1)
  · intro hc
    rw [covers_processDown] at hc ⊢
    exact ⟨h k hc.1, hc.2⟩

lemma covers_foldl_mono (l : List ChargerReport) :
    ∀ (A B : List (ℤ × ℤ)), (∀ k, covers A k → covers B k) →
      ∀ k, covers (l.foldl processReport A) k →
        covers (l.foldl processReport B) k := by
  induction l with
  | nil => intro A B h k; exact h k
  | cons r rest ih =>
    intro A B h k
    rw [List.foldl_cons, List.foldl_cons]
    exact ih _ _ (covers_processReport_mono r h) k

/-! ### Well-formedness and bounds carried through reconciliation -/

lemma mem_downPieces {ds de : ℤ} {iv0 iv : ℤ × ℤ} (h : iv ∈ downPieces ds de iv0) :
    iv = iv0 ∨
      (iv = (iv0.1, ds) ∧ iv0.1 < ds ∧ ds < iv0.2) ∨
      (iv = (de, iv0.2) ∧ iv0.1 < de ∧ de < iv0.2) := by
  unfold downPieces at h
  split_ifs at h with h1 h2 h3 h4 <;>
    simp only [List.mem_append, List.mem_singleton, List.not_mem_nil, or_false,
      false_or] at h
  · exact Or.inl h
  · rcases h with rfl | rfl
    · exact Or.inr (Or.inl ⟨rfl, h2, by omega⟩)
    · exact Or.inr (Or.inr ⟨rfl, by omega, h3⟩)
  · rcases h with rfl
    exact Or.inr (Or.inl ⟨rfl, h2, by omega⟩)
  · rcases h with rfl
    exact Or.inr (Or.inr ⟨rfl, by omega, h4⟩)

/-- The invariant `lo ≤ start ≤ end ≤ hi` on every interval survives a down
report whose own window satisfies it. -/
lemma processDown_bounds {lo hi ds de : ℤ} (h1 : lo ≤ ds) (h2 : ds ≤ de)
    (h3 : de ≤ hi) {ivs : List (ℤ × ℤ)}
    (hA : ∀ iv ∈ ivs, lo ≤ iv.1 ∧ iv.1 ≤ iv.2 ∧ iv.2 ≤ hi) :
    ∀ iv ∈ processDown ds de ivs, lo ≤ iv.1 ∧ iv.1 ≤ iv.2 ∧ iv.2 ≤ hi := by
  rw [processDown_eq]
  intro iv hm
  rw [List.mem_flatten] at hm
  obtain ⟨pieces, hp, hmem⟩ := hm
  rw [List.mem_map] at hp
  obtain ⟨iv0, hiv0, rfl⟩ := hp
  have h0 := hA iv0 hiv0
  rcases mem_downPieces hmem with rfl | ⟨rfl, ha, hb⟩ | ⟨rfl, ha, hb⟩
  · exact h0
  · exact ⟨by omega, by omega, by omega⟩
  · exact ⟨by omega, by omega, by omega⟩

/-- The invariant on the running list through the whole reconciliation. -/
lemma foldl_processReport_bounds {lo hi : ℤ} :
    ∀ (l : List ChargerReport) (A : List (ℤ × ℤ)),
      (∀ r ∈ l, lo ≤ r.start_time ∧ r.start_time ≤ r.end_time ∧ r.end_time ≤ hi) →
      (∀ iv ∈ A, lo ≤ iv.1 ∧ iv.1 ≤ iv.2 ∧ iv.2 ≤ hi) →
      ∀ iv ∈ l.foldl processReport A, lo ≤ iv.1 ∧ iv.1 ≤ iv.2 ∧ iv.2 ≤ hi := by
  intro l
  induction l with
  | nil => intro A _ hA; exact hA
  | cons r rest ih =>
    intro A hl hA
    rw [List.foldl_cons]
    apply ih _ (fun x hx => hl x (List.mem_cons_of_mem r hx))
    have hr := hl r (List.mem_cons_self r rest)
    unfold processReport
    split_ifs with hup
    · intro iv hm
      rcases List.mem_append.mp hm with h | h
      · exact hA iv h
      · rcases List.mem_singleton.mp h with rfl
        exact ⟨hr.1, hr.2.1, hr.2.2⟩
    · exact processDown_bounds hr.1 hr.2.1 hr.2.2 hA

/-! ### The interval merge -/

lemma tupLE_fst_le {p q : ℤ × ℤ} (h : tupLE p q) : p.1 ≤ q.1 := by
  unfold tupLE at h
  omega

instance : IsTotal (ℤ × ℤ) tupLE := by
  constructor
  intro a b
  unfold tupLE
  omega

instance : IsTrans (ℤ × ℤ) tupLE := by
  constructor
  intro a b c hab hbc
  unfold tupLE at *
  omega

lemma covers_mergeAux (k : ℤ) :
    ∀ (l : List (ℤ × ℤ)) (cur : ℤ × ℤ),
      List.Sorted tupLE l → (∀ iv ∈ l, cur.1 ≤ iv.1) →
      (covers (mergeAux cur l) k ↔ (cur.1 ≤ k ∧ k < cur.2) ∨ covers l k) := by
  intro l
  induction l with
  | nil =>
    intro cur _ _
    rw [mergeAux, covers_cons]
  | cons iv rest ih =>
    intro cur hs hle
    have hrest : ∀ x ∈ rest, cur.1 ≤ x.1 := fun x hx =>
      hle x (List.mem_cons_of_mem iv hx)
    have hivrest : ∀ x ∈ rest, iv.1 ≤ x.1 := fun x hx =>
      tupLE_fst_le (List.rel_of_sorted_cons hs x hx)
    have hcuriv : cur.1 ≤ iv.1 := hle iv (List.mem_cons_self iv rest)
    rw [mergeAux]
    split_ifs with hm
    · rw [ih (cur.1, max cur.2 iv.2) hs.tail hrest, covers_cons]
      constructor
      · rintro (h | h)
        · simp only at h
          rcases le_or_lt iv.1 k with hk | hk
          · rcases lt_or_le k iv.2 with hk2 | hk2
            · exact Or.inr (Or.inl ⟨hk, hk2⟩)
            · exact Or.inl ⟨h.1, by omega⟩
          · exact Or.inl ⟨h.1, by omega⟩
        · exact Or.inr (Or.inr h)
      · rintro (h | h | h)
        · exact Or.inl ⟨h.1, by simp only; omega⟩
        · exact Or.inl ⟨by omega, by simp only; omega⟩
        · exact Or.inr h
    · rw [covers_cons, ih iv hs.tail hivrest, covers_cons]

/-- A structural invariant preserved by the merge accumulator. -/
lemma mergeAux_invariant (P : ℤ × ℤ → Prop)
    (hP : ∀ a b, P a → P b → P (a.1, max a.2 b.2)) :
    ∀ (l : List (ℤ × ℤ)) (cur : ℤ × ℤ), P cur → (∀ iv ∈ l, P iv) →
      ∀ iv ∈ mergeAux cur l, P iv := by
  intro l
  induction l with
  | nil =>
    intro cur hc _ iv hm
    rw [mergeAux] at hm
    rcases List.mem_singleton.mp hm with rfl
    exact hc
  | cons x rest ih =>
    intro cur hc hl iv hm
    rw [mergeAux] at hm
    split_ifs at hm with h
    · exact ih _ (hP cur x hc (hl x (List.mem_cons_self x rest)))
        (fun y hy => hl y (List.mem_cons_of_mem x hy)) iv hm
    · rcases List.mem_cons.mp hm with rfl | hm2
      · exact hc
      · exact ih x (hl x (List.mem_cons_self x rest))
          (fun y hy => hl y (List.mem_cons_of_mem x hy)) iv hm2

lemma mergeAux_starts :
    ∀ (l : List (ℤ × ℤ)) (cur : ℤ × ℤ), List.Sorted tupLE l →
      (∀ iv ∈ l, cur.1 ≤ iv.1) →
      ∀ iv ∈ mergeAux cur l, cur.1 ≤ iv.1 := by
  intro l
  induction l with
  | nil =>
    intro cur _ _ iv hm
    rw [mergeAux] at hm
    rcases List.mem_singleton.mp hm with rfl
    exact le_rfl
  | cons x rest ih =>
    intro cur hs hle iv hm
    have hx : cur.1 ≤ x.1 := hle x (List.mem_cons_self x rest)
    have hrest : ∀ y ∈ rest, cur.1 ≤ y.1 := fun y hy =>
      hle y (List.mem_cons_of_mem x hy)
    have hxrest : ∀ y ∈ rest, x.1 ≤ y.1 := fun y hy =>
      tupLE_fst_le (List.rel_of_sorted_cons hs y hy)
    rw [mergeAux] at hm
    split_ifs at hm with h
    · exact ih (cur.1, max cur.2 x.2) hs.tail hrest iv hm
    · rcases List.mem_cons.mp hm with rfl | hm2
      · exact le_rfl
      · exact le_trans hx (ih x hs.tail hxrest iv hm2)

lemma mergeAux_pairwise :
    ∀ (l : List (ℤ × ℤ)) (cur : ℤ × ℤ),
      List.Sorted tupLE l → (∀ iv ∈ l, iv.1 ≤ iv.2) → cur.1 ≤ cur.2 →
      (mergeAux cur l).Pairwise (fun p q => p.2 < q.1) := by
  intro l
  induction l with
  | nil =>
    intro cur _ _ _
    rw [mergeAux]
    exact List.pairwise_singleton _ _
  | cons x rest ih =>
    intro cur hs hwf hcur
    have hxwf : x.1 ≤ x.2 := hwf x (List.mem_cons_self x rest)
    have hrestwf : ∀ y ∈ rest, y.1 ≤ y.2 := fun y hy =>
      hwf y (List.mem_cons_of_mem x hy)
    have hxrest : ∀ y ∈ rest, x.1 ≤ y.1 := fun y hy =>
      tupLE_fst_le (List.rel_of_sorted_cons hs y hy)
    rw [mergeAux]
    split_ifs with h
    · exact ih (cur.1, max cur.2 x.2) hs.tail hrestwf (by simp only; omega)
    · rw [List.pairwise_cons]
      refine ⟨?_, ih x hs.tail hrestwf hxwf⟩
      intro q hq
      have hq1 : x.1 ≤ q.1 := mergeAux_starts rest x hs.tail hxrest q hq
      omega

lemma sortIntervals_sorted (l : List (ℤ × ℤ)) : List.Sorted tupLE (sortIntervals l) :=
  List.sorted_insertionSort tupLE l

lemma sortIntervals_perm (l : List (ℤ × ℤ)) : (sortIntervals l).Perm l :=
  List.perm_insertionSort tupLE l

/-- The merge neither adds nor loses covered cells. -/
lemma covers_merge (l : List (ℤ × ℤ)) (k : ℤ) :
    covers (_merge_intervals l) k ↔ covers l k := by
  unfold _merge_intervals
  cases hs : sortIntervals l with
  | nil =>
    have hperm := sortIntervals_perm l
    rw [hs] at hperm
    exact covers_of_perm hperm
  | cons h t =>
    have hsorted := sortIntervals_sorted l
    have hperm := sortIntervals_perm l
    rw [hs] at hsorted hperm
    rw [covers_mergeAux k t h hsorted.tail
      (fun iv hiv => tupLE_fst_le (List.rel_of_sorted_cons hsorted iv hiv)),
      ← covers_cons]
    exact covers_of_perm hperm

lemma merge_bounds {lo hi : ℤ} {l : List (ℤ × ℤ)}
    (hb : ∀ iv ∈ l, lo ≤ iv.1 ∧ iv.1 ≤ iv.2 ∧ iv.2 ≤ hi) :
    ∀ iv ∈ _merge_intervals l, lo ≤ iv.1 ∧ iv.1 ≤ iv.2 ∧ iv.2 ≤ hi := by
  unfold _merge_intervals
  cases hs : sortIntervals l with
  | nil => intro iv hm; simp at hm
  | cons h t =>
    have hperm := sortIntervals_perm l
    rw [hs] at hperm
    have hb2 : ∀ iv ∈ h :: t, lo ≤ iv.1 ∧ iv.1 ≤ iv.2 ∧ iv.2 ≤ hi := fun iv hm =>
      hb iv (hperm.mem_iff.mp hm)
    exact mergeAux_invariant _
      (fun a b ha hbb => ⟨ha.1, by simp only; omega, by simp only; omega⟩)
      t h (hb2 h (List.mem_cons_self h t))
      (fun iv hm => hb2 iv (List.mem_cons_of_mem h hm))

lemma merge_wf {l : List (ℤ × ℤ)} (hwf : ∀ iv ∈ l, iv.1 ≤ iv.2) :
    ∀ iv ∈ _merge_intervals l, iv.1 ≤ iv.2 := by
  unfold _merge_intervals
  cases hs : sortIntervals l with
  | nil => intro iv hm; simp at hm
  | cons h t =>
    have hperm := sortIntervals_perm l
    rw [hs] at hperm
    have hwf2 : ∀ iv ∈ h :: t, iv.1 ≤ iv.2 := fun iv hm =>
      hwf iv (hperm.mem_iff.mp hm)
    exact mergeAux_invariant _
      (fun a b ha hbb => by simp only; omega)
      t h (hwf2 h (List.mem_cons_self h t))
      (fun iv hm => hwf2 iv (List.mem_cons_of_mem h hm))

lemma merge_pairwise {l : List (ℤ × ℤ)} (hwf : ∀ iv ∈ l, iv.1 ≤ iv.2) :
    (_merge_intervals l).Pairwise (fun p q => p.2 < q.1) := by
  unfold _merge_intervals
  cases hs : sortIntervals l with
  | nil => exact List.Pairwise.nil
  | cons h t =>
    have hsorted := sortIntervals_sorted l
    have hperm := sortIntervals_perm l
    rw [hs] at hsorted hperm
    have hwf2 : ∀ iv ∈ h :: t, iv.1 ≤ iv.2 := fun iv hm =>
      hwf iv (hperm.mem_iff.mp hm)
    exact mergeAux_pairwise t h hsorted.tail
      (fun iv hm => hwf2 iv (List.mem_cons_of_mem h hm))
      (hwf2 h (List.mem_cons_self h t))

/-- For a separated well-formed interval list inside `[lo, hi]`, the total
length is the number of covered unit cells of `[lo, hi)`. -/
lemma sumLengths_eq_card (lo hi : ℤ) :
    ∀ l : List (ℤ × ℤ),
      (∀ iv ∈ l, lo ≤ iv.1 ∧ iv.1 ≤ iv.2 ∧ iv.2 ≤ hi) →
      l.Pairwise (fun p q => p.2 < q.1) →
      sumLengths l = (((Finset.Ico lo hi).filter (fun k => covers l k)).card : ℤ) := by
  intro l
  induction l with
  | nil =>
    intro _ _
    have hempty : ((Finset.Ico lo hi).filter (fun k => covers ([] : List (ℤ × ℤ)) k))
        = ∅ := by
      apply Finset.filter_false_of_mem
      intro k _
      exact covers_nil
    rw [hempty]
    simp [sumLengths]
  | cons iv rest ih =>
    intro hb hp
    have hbrest : ∀ x ∈ rest, lo ≤ x.1 ∧ x.1 ≤ x.2 ∧ x.2 ≤ hi := fun x hx =>
      hb x (List.mem_cons_of_mem iv hx)
    have hbiv := hb iv (List.mem_cons_self iv rest)
    have hsep : ∀ q ∈ rest, iv.2 < q.1 := (List.pairwise_cons.mp hp).1
    have hrest := ih hbrest (List.pairwise_cons.mp hp).2
    have hsplit : (Finset.Ico lo hi).filter (fun k => covers (iv :: rest) k)
        = (Finset.Ico iv.1 iv.2) ∪
          (Finset.Ico lo hi).filter (fun k => covers rest k) := by
      ext k
      simp only [Finset.mem_filter, Finset.mem_union, Finset.mem_Ico, covers_cons]
      constructor
      · rintro ⟨hk, h | h⟩
        · exact Or.inl h
        · exact Or.inr ⟨hk, h⟩
      · rintro (h | ⟨hk, h⟩)
        · exact ⟨⟨by omega, by omega⟩, Or.inl h⟩
        · exact ⟨hk, Or.inr h⟩
    have hdisj : Disjoint (Finset.Ico iv.1 iv.2)
        ((Finset.Ico lo hi).filter (fun k => covers rest k)) := by
      rw [Finset.disjoint_left]
      intro k hk1 hk2
      rw [Finset.mem_Ico] at hk1
      rw [Finset.mem_filter] at hk2
      obtain ⟨x, hx, hxk⟩ := hk2.2
      have := hsep x hx
      omega
    have hcons : sumLengths (iv :: rest) = (iv.2 - iv.1) + sumLengths rest := by
      simp [sumLengths]
    rw [hcons, hsplit, Finset.card_union_of_disjoint hdisj, hrest, Int.card_Ico]
    push_cast
    omega

/-- The merged total length counts exactly the cells covered by the raw
interval list. -/
lemma sum_merge_eq_card (lo hi : ℤ) (l : List (ℤ × ℤ))
    (hb : ∀ iv ∈ l, lo ≤ iv.1 ∧ iv.1 ≤ iv.2 ∧ iv.2 ≤ hi) :
    sumLengths (_merge_intervals l) =
      (((Finset.Ico lo hi).filter (fun k => covers l k)).card : ℤ) := by
  rw [sumLengths_eq_card lo hi (_merge_intervals l) (merge_bounds hb)
    (merge_pairwise (fun iv hm => (hb iv hm).2.1))]
  have hfc : (Finset.Ico lo hi).filter (fun k => covers (_merge_intervals l) k)
      = (Finset.Ico lo hi).filter (fun k => covers l k) := by
    apply Finset.filter_congr
    intro k _
    rw [covers_merge]
  rw [hfc]

lemma sumLengths_nonneg {l : List (ℤ × ℤ)} (hwf : ∀ iv ∈ l, iv.1 ≤ iv.2) :
    0 ≤ sumLengths l := by
  unfold sumLengths
  apply List.sum_nonneg
  intro x hx
  rw [List.mem_map] at hx
  obtain ⟨iv, hm, rfl⟩ := hx
  have := hwf iv hm
  omega

lemma sum_merge_le (lo hi : ℤ) (l : List (ℤ × ℤ)) (hlo : lo ≤ hi)
    (hb : ∀ iv ∈ l, lo ≤ iv.1 ∧ iv.1 ≤ iv.2 ∧ iv.2 ≤ hi) :
    sumLengths (_merge_intervals l) ≤ hi - lo := by
  rw [sum_merge_eq_card lo hi l hb]
  have h1 := Finset.card_filter_le (Finset.Ico lo hi) (fun k => covers l k)
  rw [Int.card_Ico] at h1
  have h2 : ((hi - lo).toNat : ℤ) = hi - lo := Int.toNat_of_nonneg (by omega)
  omega

lemma covers_mem_bounds {lo hi : ℤ} {l : List (ℤ × ℤ)}
    (hb : ∀ iv ∈ l, lo ≤ iv.1 ∧ iv.1 ≤ iv.2 ∧ iv.2 ≤ hi) {k : ℤ}
    (h : covers l k) : lo ≤ k ∧ k < hi := by
  obtain ⟨iv, hm, hk⟩ := h
  have := hb iv hm
  omega

/-- Coverage-monotone interval lists (possibly with different windows) have
monotone merged totals. -/
lemma sum_merge_le_sum_merge {lo hi lo2 hi2 : ℤ} {l l2 : List (ℤ × ℤ)}
    (hb : ∀ iv ∈ l, lo ≤ iv.1 ∧ iv.1 ≤ iv.2 ∧ iv.2 ≤ hi)
    (hb2 : ∀ iv ∈ l2, lo2 ≤ iv.1 ∧ iv.1 ≤ iv.2 ∧ iv.2 ≤ hi2)
    (hcov : ∀ k, covers l k → covers l2 k) :
    sumLengths (_merge_intervals l) ≤ sumLengths (_merge_intervals l2) := by
  rw [sum_merge_eq_card lo hi l hb, sum_merge_eq_card lo2 hi2 l2 hb2]
  have hsub : (Finset.Ico lo hi).filter (fun k => covers l k) ⊆
      (Finset.Ico lo2 hi2).filter (fun k => covers l2 k) := by
    intro k hk
    rw [Finset.mem_filter] at hk ⊢
    have hc := hcov k hk.2
    refine ⟨Finset.mem_Ico.mpr ?_, hc⟩
    exact covers_mem_bounds hb2 hc
  exact_mod_cast Finset.card_le_card hsub

/-! ### The report order is a total preorder -/

instance : IsTotal ChargerReport reportLE := by
  constructor
  intro a b
  unfold reportLE
  rcases lt_trichotomy a.start_time b.start_time with h | h | h
  · exact Or.inl (Or.inl h)
  · cases ha : a.is_up
    · exact Or.inr (Or.inr ⟨h.symm, Or.inr rfl⟩)
    · exact Or.inl (Or.inr ⟨h, Or.inl rfl⟩)
  · exact Or.inr (Or.inl h)

instance : IsTrans ChargerReport reportLE := by
  constructor
  intro a b c hab hbc
  unfold reportLE at *
  rcases hab with h1 | ⟨h1, h1b⟩
  · rcases hbc with h2 | ⟨h2, _⟩
    · exact Or.inl (by omega)
    · exact Or.inl (by omega)
  · rcases hbc with h2 | ⟨h2, h2b⟩
    · exact Or.inl (by omega)
    · refine Or.inr ⟨by omega, ?_⟩
      rcases h1b with hb | hb
      · exact Or.inl hb
      · rcases h2b with hc | hc
        · rw [hb] at hc
          exact absurd hc (by decide)
        · exact Or.inr hc

/-! ### Stability of insertion sort under appending one element

Python's `sorted` is stable; appending one element to the input inserts it at
its key position and leaves the relative order of the others untouched. -/

section StableInsert

variable {α : Type} (r : α → α → Prop) [DecidableRel r] [IsTotal α r] [IsTrans α r]

lemma orderedInsert_mid (x u : α) :
    ∀ (t₁ t₂ : List α), List.Sorted r (t₁ ++ u :: t₂) →
      ∃ w₁ w₂ : List α,
        List.orderedInsert r x (t₁ ++ t₂) = w₁ ++ w₂ ∧
        List.orderedInsert r x (t₁ ++ u :: t₂) = w₁ ++ u :: w₂ := by
  intro t₁
  induction t₁ with
  | nil =>
    intro t₂ hs
    simp only [List.nil_append] at hs ⊢
    by_cases h : r x u
    · refine ⟨[x], t₂, ?_, ?_⟩
      · cases t₂ with
        | nil => rfl
        | cons y ys =>
          have hxy : r x y :=
            IsTrans.trans x u y h
              (List.rel_of_sorted_cons hs y (List.mem_cons_self y ys))
          rw [List.orderedInsert, if_pos hxy]
          rfl
      · rw [List.orderedInsert, if_pos h]
        rfl
    · refine ⟨[], List.orderedInsert r x t₂, rfl, ?_⟩
      rw [List.orderedInsert, if_neg h]
      rfl
  | cons y t₁t ih =>
    intro t₂ hs
    simp only [List.cons_append] at hs ⊢
    by_cases h : r x y
    · refine ⟨x :: y :: t₁t, t₂, ?_, ?_⟩
      · rw [List.orderedInsert, if_pos h]
        rfl
      · rw [List.orderedInsert, if_pos h]
        rfl
    · obtain ⟨w₁, w₂, hw1, hw2⟩ := ih t₂ hs.tail
      refine ⟨y :: w₁, w₂, ?_, ?_⟩
      · rw [List.orderedInsert, if_neg h, hw1]
        rfl
      · rw [List.orderedInsert, if_neg h, hw2]
        rfl

lemma foldr_orderedInsert_mid (u : α) :
    ∀ (l s₁ s₂ : List α), List.Sorted r (s₁ ++ u :: s₂) →
      ∃ t₁ t₂ : List α,
        List.foldr (List.orderedInsert r) (s₁ ++ s₂) l = t₁ ++ t₂ ∧
        List.foldr (List.orderedInsert r) (s₁ ++ u :: s₂) l = t₁ ++ u :: t₂ ∧
        List.Sorted r (t₁ ++ u :: t₂) := by
  intro l
  induction l with
  | nil => intro s₁ s₂ hs; exact ⟨s₁, s₂, rfl, rfl, hs⟩
  | cons x xs ih =>
    intro s₁ s₂ hs
    obtain ⟨t₁, t₂, h1, h2, hsorted⟩ := ih s₁ s₂ hs
    obtain ⟨w₁, w₂, hw1, hw2⟩ := orderedInsert_mid r x u t₁ t₂ hsorted
    refine ⟨w₁, w₂, ?_, ?_, ?_⟩
    · rw [List.foldr_cons, h1, hw1]
    · rw [List.foldr_cons, h2, hw2]
    · rw [← hw2]
      exact hsorted.orderedInsert x _

lemma insertionSort_eq_foldr :
    ∀ l : List α, List.insertionSort r l = l.foldr (List.orderedInsert r) [] := by
  intro l
  induction l with
  | nil => rfl
  | cons x xs ih => rw [List.insertionSort, ih, List.foldr_cons]

/-- Appending one element to the input of a stable sort inserts it somewhere
in the output, leaving the other elements' relative order unchanged. -/
lemma insertionSort_append_single (l : List α) (u : α) :
    ∃ s₁ s₂ : List α, List.insertionSort r l = s₁ ++ s₂ ∧
      List.insertionSort r (l ++ [u]) = s₁ ++ u :: s₂ := by
  rw [insertionSort_eq_foldr, insertionSort_eq_foldr, List.foldr_append]
  have hs : List.Sorted r (([] : List α) ++ u :: ([] : List α)) := by
    simp
  obtain ⟨t₁, t₂, h1, h2, _⟩ := foldr_orderedInsert_mid r u l [] [] hs
  exact ⟨t₁, t₂, by simpa using h1, by simpa using h2⟩

end StableInsert

/-! ### Per-charger coverage monotonicity -/

/-- Appending one UP report to a charger's raw report list only grows the
cells covered by its reconciled up-intervals. -/
lemma reconcile_append_up_cov {l : List ChargerReport} {u : ChargerReport}
    (hu : u.is_up = true) :
    ∀ k, covers (reconcile (sortReports l)) k →
      covers (reconcile (sortReports (l ++ [u]))) k := by
  obtain ⟨s₁, s₂, h1, h2⟩ := insertionSort_append_single reportLE l u
  unfold sortReports reconcile
  rw [h1, h2, List.foldl_append, List.foldl_append, List.foldl_cons]
  have hpr : processReport (List.foldl processReport [] s₁) u
      = List.foldl processReport [] s₁ ++ [(u.start_time, u.end_time)] := by
    unfold processReport
    rw [if_pos hu]
  rw [hpr]
  intro k hk
  exact covers_foldl_mono s₂ _ _
    (fun j hj => covers_append.mpr (Or.inl hj)) k hk

/-- Appending one DOWN report to a charger's raw report list only shrinks
the cells covered by its reconciled up-intervals. -/
lemma reconcile_append_down_cov {l : List ChargerReport} {u : ChargerReport}
    (hu : u.is_up = false) :
    ∀ k, covers (reconcile (sortReports (l ++ [u]))) k →
      covers (reconcile (sortReports l)) k := by
  obtain ⟨s₁, s₂, h1, h2⟩ := insertionSort_append_single reportLE l u
  unfold sortReports reconcile
  rw [h1, h2, List.foldl_append, List.foldl_append, List.foldl_cons]
  have hpr : processReport (List.foldl processReport [] s₁) u
      = processDown u.start_time u.end_time (List.foldl processReport [] s₁) := by
    unfold processReport
    rw [if_neg (by rw [hu]; decide)]
  rw [hpr]
  intro k hk
  exact covers_foldl_mono s₂ _ _
    (fun j hj => (covers_processDown.mp hj).1) k hk

/-- Membership in the sorted list is membership in the raw list. -/
lemma mem_sortReports {l : List ChargerReport} {x : ChargerReport} :
    x ∈ sortReports l ↔ x ∈ l :=
  (List.perm_insertionSort reportLE l).mem_iff

/-- A charger with no up reports confirms no up-intervals. -/
lemma reconcile_no_up :
    ∀ l : List ChargerReport, (∀ x ∈ l, x.is_up = false) → reconcile l = [] := by
  intro l
  induction l with
  | nil => intro _; rfl
  | cons x rest ih =>
    intro h
    unfold reconcile at *
    rw [List.foldl_cons]
    have hx : processReport [] x = [] := by
      unfold processReport
      rw [if_neg (by rw [h x (List.mem_cons_self x rest)]; decide)]
      rfl
    rw [hx]
    exact ih (fun y hy => h y (List.mem_cons_of_mem x hy))

/-- A down report strictly right of every interval changes nothing. -/
lemma processDown_keep {ds de : ℤ} :
    ∀ ivs : List (ℤ × ℤ), (∀ iv ∈ ivs, iv.2 ≤ ds) → processDown ds de ivs = ivs := by
  intro ivs
  induction ivs with
  | nil => intro _; rfl
  | cons iv rest ih =>
    intro h
    rw [processDown_eq, List.map_cons, List.flatten_cons]
    have hp : downPieces ds de iv = [iv] := by
      unfold downPieces
      rw [if_pos (Or.inl (h iv (List.mem_cons_self iv rest)))]
    rw [hp, ← processDown_eq]
    rw [ih (fun y hy => h y (List.mem_cons_of_mem iv hy))]
    rfl

/-- When every report is the instantaneous `(t, t)`, reconciliation simply
collects one degenerate interval per up report. -/
lemma reconcile_all_instant (t : ℤ) :
    ∀ (l : List ChargerReport) (A : List (ℤ × ℤ)),
      (∀ x ∈ l, x.start_time = t ∧ x.end_time = t) →
      (∀ iv ∈ A, iv = (t, t)) →
      l.foldl processReport A
        = A ++ (l.filter (fun x => x.is_up)).map
            (fun x => (x.start_time, x.end_time)) := by
  intro l
  induction l with
  | nil => intro A _ _; simp
  | cons x rest ih =>
    intro A hl hA
    have hx := hl x (List.mem_cons_self x rest)
    rw [List.foldl_cons]
    cases hup : x.is_up with
    | true =>
      have hpr : processReport A x = A ++ [(x.start_time, x.end_time)] := by
        unfold processReport
        rw [if_pos hup]
      rw [hpr, ih (A ++ [(x.start_time, x.end_time)])
        (fun y hy => hl y (List.mem_cons_of_mem x hy))
        (fun iv hm => by
          rcases List.mem_append.mp hm with h | h
          · exact hA iv h
          · rcases List.mem_singleton.mp h with rfl
            rw [hx.1, hx.2])]
      rw [List.filter_cons_of_pos (by rw [hup]), List.map_cons]
      simp
    | false =>
      have hpr : processReport A x = A := by
        unfold processReport
        rw [if_neg (by rw [hup]; decide)]
        exact processDown_keep A (fun iv hm => by rw [hA iv hm, hx.1])
      rw [hpr, ih A (fun y hy => hl y (List.mem_cons_of_mem x hy)) hA,
        List.filter_cons_of_neg (by rw [hup]; decide)]

/-! ### Calculator updates -/

/-- The calculator after one more report for charger `cid` (what parsing one
extra report line for `cid` does, lines 74-78). -/
def addReport (c : Calculator) (cid : ℤ) (r : ChargerReport) : Calculator :=
  { c with charger_reports := appendReport c.charger_reports cid r }

lemma alookup_appendReport_same :
    ∀ (m : List (ℤ × List ChargerReport)) (cid : ℤ) (r : ChargerReport),
      alookup (appendReport m cid r) cid = some ((alookup m cid).getD [] ++ [r]) := by
  intro m
  induction m with
  | nil =>
    intro cid r
    simp [appendReport, alookup]
  | cons kv rest ih =>
    intro cid r
    obtain ⟨k, v⟩ := kv
    by_cases h : k = cid
    · subst h
      simp [appendReport, alookup]
    · rw [appendReport, if_neg h, alookup, if_neg h, alookup, if_neg h]
      exact ih cid r

lemma alookup_appendReport_other :
    ∀ (m : List (ℤ × List ChargerReport)) (cid cid2 : ℤ) (r : ChargerReport),
      cid2 ≠ cid →
      alookup (appendReport m cid r) cid2 = alookup m cid2 := by
  intro m
  induction m with
  | nil =>
    intro cid cid2 r h
    simp [appendReport, alookup]
    omega
  | cons kv rest ih =>
    intro cid cid2 r h
    obtain ⟨k, v⟩ := kv
    by_cases hk : k = cid
    · subst hk
      rw [appendReport, if_pos rfl, alookup, alookup,
        if_neg (by omega), if_neg (by omega)]
    · rw [appendReport, if_neg hk, alookup, alookup]
      by_cases hk2 : k = cid2
      · rw [if_pos hk2, if_pos hk2]
      · rw [if_neg hk2, if_neg hk2]
        exact ih cid cid2 r h

lemma alookup_mem {α : Type} :
    ∀ (m : List (ℤ × α)) (key : ℤ) (v : α),
      alookup m key = some v → (key, v) ∈ m := by
  intro m
  induction m with
  | nil => intro key v h; simp [alookup] at h
  | cons kv rest ih =>
    intro key v h
    obtain ⟨k, w⟩ := kv
    rw [alookup] at h
    split_ifs at h with hk
    · subst hk
      rcases Option.some_inj.mp h with rfl
      exact List.mem_cons_self _ _
    · exact List.mem_cons_of_mem _ (ih key v h)

/-- Well-formedness of all stored reports (`start_time ≤ end_time`), the
invariant the parser establishes (line 71-72). -/
def ReportsWF (c : Calculator) : Prop :=
  ∀ entry ∈ c.charger_reports, ∀ x ∈ entry.2, x.start_time ≤ x.end_time

lemma mem_appendReport_reports :
    ∀ (m : List (ℤ × List ChargerReport)) (cid : ℤ) (r : ChargerReport)
      (entry : ℤ × List ChargerReport), entry ∈ appendReport m cid r →
      ∀ x ∈ entry.2, (∃ e ∈ m, x ∈ e.2) ∨ x = r := by
  intro m
  induction m with
  | nil =>
    intro cid r entry hentry x hx
    simp only [appendReport, List.mem_singleton] at hentry
    subst hentry
    rcases List.mem_singleton.mp hx with rfl
    exact Or.inr rfl
  | cons kv rest ih =>
    intro cid r entry hentry x hx
    obtain ⟨k, v⟩ := kv
    rw [appendReport] at hentry
    split_ifs at hentry with hk
    · rcases List.mem_cons.mp hentry with rfl | hmem
      · rcases List.mem_append.mp hx with h | h
        · exact Or.inl ⟨(k, v), List.mem_cons_self _ _, h⟩
        · rcases List.mem_singleton.mp h with rfl
          exact Or.inr rfl
      · exact Or.inl ⟨entry, List.mem_cons_of_mem _ hmem, hx⟩
    · rcases List.mem_cons.mp hentry with rfl | hmem
      · exact Or.inl ⟨(k, v), List.mem_cons_self _ _, hx⟩
      · rcases ih cid r entry hmem x hx with ⟨e, he, hxe⟩ | h
        · exact Or.inl ⟨e, List.mem_cons_of_mem _ he, hxe⟩
        · exact Or.inr h

lemma ReportsWF_addReport {c : Calculator} {cid : ℤ} {r : ChargerReport}
    (hwf : ReportsWF c) (hr : r.start_time ≤ r.end_time) :
    ReportsWF (addReport c cid r) := by
  intro entry hentry x hx
  rcases mem_appendReport_reports c.charger_reports cid r entry hentry x hx with
    ⟨e, he, hxe⟩ | hxr
  · exact hwf e he x hxe
  · rw [hxr]
    exact hr

/-! ### Minimum and maximum of integer lists -/

lemma foldl_min_le :
    ∀ (xs : List ℤ) (a : ℤ), xs.foldl min a ≤ a ∧ ∀ x ∈ xs, xs.foldl min a ≤ x := by
  intro xs
  induction xs with
  | nil => intro a; exact ⟨le_rfl, by simp⟩
  | cons y ys ih =>
    intro a
    rw [List.foldl_cons]
    obtain ⟨h1, h2⟩ := ih (min a y)
    refine ⟨le_trans h1 (min_le_left a y), ?_⟩
    intro x hx
    rcases List.mem_cons.mp hx with rfl | hx
    · exact le_trans h1 (min_le_right a x)
    · exact h2 x hx

lemma le_foldl_max :
    ∀ (xs : List ℤ) (a : ℤ), a ≤ xs.foldl max a ∧ ∀ x ∈ xs, x ≤ xs.foldl max a := by
  intro xs
  induction xs with
  | nil => intro a; exact ⟨le_rfl, by simp⟩
  | cons y ys ih =>
    intro a
    rw [List.foldl_cons]
    obtain ⟨h1, h2⟩ := ih (max a y)
    refine ⟨le_trans (le_max_left a y) h1, ?_⟩
    intro x hx
    rcases List.mem_cons.mp hx with rfl | hx
    · exact le_trans (le_max_right a x) h1
    · exact h2 x hx

lemma listMin_le {l : List ℤ} {x : ℤ} (h : x ∈ l) : listMin l ≤ x := by
  cases l with
  | nil => simp at h
  | cons a xs =>
    unfold listMin
    rcases List.mem_cons.mp h with rfl | hx
    · exact (foldl_min_le xs x).1
    · exact (foldl_min_le xs a).2 x hx

lemma le_listMax {l : List ℤ} {x : ℤ} (h : x ∈ l) : x ≤ listMax l := by
  cases l with
  | nil => simp at h
  | cons a xs =>
    unfold listMax
    rcases List.mem_cons.mp h with rfl | hx
    · exact (le_foldl_max xs x).1
    · exact (le_foldl_max xs a).2 x hx

lemma foldl_min_mem :
    ∀ (xs : List ℤ) (a : ℤ), xs.foldl min a = a ∨ xs.foldl min a ∈ xs := by
  intro xs
  induction xs with
  | nil => intro a; exact Or.inl rfl
  | cons y ys ih =>
    intro a
    rw [List.foldl_cons]
    rcases ih (min a y) with h | h
    · rcases min_choice a y with hm | hm
      · exact Or.inl (by rw [h, hm])
      · exact Or.inr (by rw [h, hm]; exact List.mem_cons_self y ys)
    · exact Or.inr (List.mem_cons_of_mem y h)

lemma foldl_max_mem :
    ∀ (xs : List ℤ) (a : ℤ), xs.foldl max a = a ∨ xs.foldl max a ∈ xs := by
  intro xs
  induction xs with
  | nil => intro a; exact Or.inl rfl
  | cons y ys ih =>
    intro a
    rw [List.foldl_cons]
    rcases ih (max a y) with h | h
    · rcases max_choice a y with hm | hm
      · exact Or.inl (by rw [h, hm])
      · exact Or.inr (by rw [h, hm]; exact List.mem_cons_self y ys)
    · exact Or.inr (List.mem_cons_of_mem y h)

lemma listMin_mem {l : List ℤ} (h : l ≠ []) : listMin l ∈ l := by
  cases l with
  | nil => exact absurd rfl h
  | cons a xs =>
    show List.foldl min a xs ∈ a :: xs
    rcases foldl_min_mem xs a with h1 | h1
    · rw [h1]; exact List.mem_cons_self a xs
    · exact List.mem_cons_of_mem a h1

lemma listMax_mem {l : List ℤ} (h : l ≠ []) : listMax l ∈ l := by
  cases l with
  | nil => exact absurd rfl h
  | cons a xs =>
    show List.foldl max a xs ∈ a :: xs
    rcases foldl_max_mem xs a with h1 | h1
    · rw [h1]; exact List.mem_cons_self a xs
    · exact List.mem_cons_of_mem a h1

/-! ### Station-level structure -/

lemma mem_activeSorted {c : Calculator} {cids : List ℤ} {entry : List ChargerReport}
    (h : entry ∈ activeSorted c cids) :
    ∃ cid, cid ∈ cids ∧ ∃ rs, alookup c.charger_reports cid = some rs ∧ rs ≠ [] ∧
      entry = sortReports rs := by
  unfold activeSorted at h
  rw [List.mem_filterMap] at h
  obtain ⟨cid, hcid, heq⟩ := h
  unfold activeEntry at heq
  cases halo : alookup c.charger_reports cid with
  | none =>
    rw [halo] at heq
    simp at heq
  | some rs =>
    rw [halo] at heq
    have heq2 : (if rs.isEmpty then none else some (sortReports rs)) = some entry := heq
    by_cases he : rs.isEmpty = true
    · rw [if_pos he] at heq2
      simp at heq2
    · rw [if_neg he] at heq2
      rw [Option.some_inj] at heq2
      refine ⟨cid, hcid, rs, halo, ?_, heq2.symm⟩
      intro hnil
      apply he
      rw [hnil]
      rfl

/-- Every report of an active entry is a stored report of some charger. -/
lemma mem_flatten_activeSorted {c : Calculator} {cids : List ℤ} {x : ChargerReport}
    (h : x ∈ (activeSorted c cids).flatten) :
    ∃ cid rs, alookup c.charger_reports cid = some rs ∧ x ∈ rs := by
  rw [List.mem_flatten] at h
  obtain ⟨entry, hentry, hx⟩ := h
  obtain ⟨cid, _, rs, halo, _, rfl⟩ := mem_activeSorted hentry
  exact ⟨cid, rs, halo, mem_sortReports.mp hx⟩

lemma wf_of_mem_flatten {c : Calculator} (hwf : ReportsWF c) {cids : List ℤ}
    {x : ChargerReport} (h : x ∈ (activeSorted c cids).flatten) :
    x.start_time ≤ x.end_time := by
  obtain ⟨cid, rs, halo, hx⟩ := mem_flatten_activeSorted h
  exact hwf (cid, rs) (alookup_mem _ _ _ halo) x hx

/-- All confirmed intervals of a station lie inside the observed window and
are well formed. -/
lemma stationIntervals_bounds {c : Calculator} (hwf : ReportsWF c) (cids : List ℤ) :
    ∀ iv ∈ stationIntervals (activeSorted c cids),
      listMin (startsOf (activeSorted c cids)) ≤ iv.1 ∧ iv.1 ≤ iv.2 ∧
        iv.2 ≤ listMax (endsOf (activeSorted c cids)) := by
  intro iv hm
  unfold stationIntervals at hm
  rw [List.mem_flatten] at hm
  obtain ⟨ivl, hivl, hiv⟩ := hm
  rw [List.mem_map] at hivl
  obtain ⟨entry, hentry, rfl⟩ := hivl
  have hreports : ∀ x ∈ entry,
      listMin (startsOf (activeSorted c cids)) ≤ x.start_time ∧
        x.start_time ≤ x.end_time ∧
        x.end_time ≤ listMax (endsOf (activeSorted c cids)) := by
    intro x hx
    have hflat : x ∈ (activeSorted c cids).flatten :=
      List.mem_flatten.mpr ⟨entry, hentry, hx⟩
    refine ⟨listMin_le ?_, wf_of_mem_flatten hwf hflat, le_listMax ?_⟩
    · exact List.mem_map.mpr ⟨x, hflat, rfl⟩
    · exact List.mem_map.mpr ⟨x, hflat, rfl⟩
  exact foldl_processReport_bounds entry [] hreports (by simp) iv hiv

lemma activeSorted_entries_ne_nil {c : Calculator} {cids : List ℤ} :
    ∀ entry ∈ activeSorted c cids, entry ≠ [] := by
  intro entry hentry
  obtain ⟨cid, _, rs, _, hne, rfl⟩ := mem_activeSorted hentry
  intro hnil
  apply hne
  have hlen := congrArg List.length hnil
  rw [sortReports, List.length_insertionSort] at hlen
  exact List.length_eq_zero.mp hlen

lemma flatten_ne_nil {c : Calculator} {cids : List ℤ}
    (h : activeSorted c cids ≠ []) : (activeSorted c cids).flatten ≠ [] := by
  cases hact : activeSorted c cids with
  | nil => exact absurd hact h
  | cons e rest =>
    have hne : e ≠ [] := activeSorted_entries_ne_nil e
      (by rw [hact]; exact List.mem_cons_self e rest)
    rw [List.flatten_cons]
    intro hfl
    exact hne (List.append_eq_nil.mp hfl).1

lemma minT_le_maxT {c : Calculator} {cids : List ℤ} (hwf : ReportsWF c)
    (h : activeSorted c cids ≠ []) :
    listMin (startsOf (activeSorted c cids)) ≤
      listMax (endsOf (activeSorted c cids)) := by
  have hfl := flatten_ne_nil h
  cases hx : (activeSorted c cids).flatten with
  | nil => exact absurd hx hfl
  | cons x rest =>
    have hxm : x ∈ (activeSorted c cids).flatten := by
      rw [hx]; exact List.mem_cons_self x rest
    have h1 : listMin (startsOf (activeSorted c cids)) ≤ x.start_time :=
      listMin_le (List.mem_map.mpr ⟨x, hxm, rfl⟩)
    have h2 : x.end_time ≤ listMax (endsOf (activeSorted c cids)) :=
      le_listMax (List.mem_map.mpr ⟨x, hxm, rfl⟩)
    have h3 := wf_of_mem_flatten hwf hxm
    omega

/-- The per-station range bound: every station result lies in `[0, 100]`. -/
lemma stationResult_bounds {c : Calculator} (hwf : ReportsWF c) (cids : List ℤ) :
    0 ≤ stationResult c cids ∧ stationResult c cids ≤ 100 := by
  by_cases h1 : (activeSorted c cids).isEmpty
  · rw [stationResult, if_pos h1]
    omega
  · rw [stationResult, if_neg h1]
    have hact : activeSorted c cids ≠ [] := by
      intro hnil
      apply h1
      rw [hnil]
      rfl
    by_cases h2 : listMin (startsOf (activeSorted c cids))
        = listMax (endsOf (activeSorted c cids))
    · rw [if_pos h2]
      split_ifs <;> omega
    · rw [if_neg h2]
      have hb := stationIntervals_bounds hwf cids
      have hminmax := minT_le_maxT hwf hact
      have htot : 0 < listMax (endsOf (activeSorted c cids)) -
          listMin (startsOf (activeSorted c cids)) := by omega
      have hup0 : 0 ≤ sumLengths (_merge_intervals
          (stationIntervals (activeSorted c cids))) :=
        sumLengths_nonneg (merge_wf (fun iv hm => (hb iv hm).2.1))
      have hup1 := sum_merge_le _ _ (stationIntervals (activeSorted c cids)) hminmax hb
      exact ⟨floatPct_nonneg _ _ hup0 htot,
        floatPct_le_hundred _ _ hup0 (by omega) htot⟩

/-! ### One induction step of `activeSorted` -/

lemma activeEntry_none {c : Calculator} {cid : ℤ}
    (h : alookup c.charger_reports cid = none) : activeEntry c cid = none := by
  unfold activeEntry
  rw [h]

lemma activeEntry_empty {c : Calculator} {cid : ℤ} {rs : List ChargerReport}
    (h : alookup c.charger_reports cid = some rs) (he : rs.isEmpty = true) :
    activeEntry c cid = none := by
  unfold activeEntry
  rw [h]
  show (if rs.isEmpty then none else some (sortReports rs)) = none
  rw [if_pos he]

lemma activeEntry_some {c : Calculator} {cid : ℤ} {rs : List ChargerReport}
    (h : alookup c.charger_reports cid = some rs) (he : ¬rs.isEmpty = true) :
    activeEntry c cid = some (sortReports rs) := by
  unfold activeEntry
  rw [h]
  show (if rs.isEmpty then none else some (sortReports rs)) = some (sortReports rs)
  rw [if_neg he]

lemma activeSorted_cons_none {c : Calculator} {cid2 : ℤ} {rest : List ℤ}
    (h : alookup c.charger_reports cid2 = none) :
    activeSorted c (cid2 :: rest) = activeSorted c rest := by
  unfold activeSorted
  rw [List.filterMap_cons, activeEntry_none h]

lemma activeSorted_cons_empty {c : Calculator} {cid2 : ℤ} {rest : List ℤ}
    {rs : List ChargerReport} (h : alookup c.charger_reports cid2 = some rs)
    (he : rs.isEmpty = true) :
    activeSorted c (cid2 :: rest) = activeSorted c rest := by
  unfold activeSorted
  rw [List.filterMap_cons, activeEntry_empty h he]

lemma activeSorted_cons_some {c : Calculator} {cid2 : ℤ} {rest : List ℤ}
    {rs : List ChargerReport} (h : alookup c.charger_reports cid2 = some rs)
    (he : ¬rs.isEmpty = true) :
    activeSorted c (cid2 :: rest) = sortReports rs :: activeSorted c rest := by
  unfold activeSorted
  rw [List.filterMap_cons, activeEntry_some h he]

lemma stationIntervals_cons {x : List ChargerReport} {act : List (List ChargerReport)} :
    stationIntervals (x :: act) = reconcile x ++ stationIntervals act := by
  unfold stationIntervals
  rw [List.map_cons, List.flatten_cons]

lemma activeSorted_mem_of {c : Calculator} {cids : List ℤ} {cid : ℤ}
    {rs : List ChargerReport} (hc : cid ∈ cids)
    (h : alookup c.charger_reports cid = some rs) (hne : ¬rs.isEmpty = true) :
    sortReports rs ∈ activeSorted c cids := by
  unfold activeSorted
  rw [List.mem_filterMap]
  exact ⟨cid, hc, activeEntry_some h hne⟩

/-- If the modified charger is not a member, the station is untouched. -/
lemma activeSorted_addReport_not_mem {c : Calculator} {cid : ℤ} {r : ChargerReport} :
    ∀ cids : List ℤ, cid ∉ cids →
      activeSorted (addReport c cid r) cids = activeSorted c cids := by
  intro cids
  induction cids with
  | nil => intro _; rfl
  | cons cid2 rest ih =>
    intro hnm
    have hne : cid2 ≠ cid := fun h => hnm (h ▸ List.mem_cons_self cid2 rest)
    have hrest : cid ∉ rest := fun h => hnm (List.mem_cons_of_mem cid2 h)
    have heq : alookup (addReport c cid r).charger_reports cid2
        = alookup c.charger_reports cid2 :=
      alookup_appendReport_other _ _ _ _ hne
    cases hold : alookup c.charger_reports cid2 with
    | none =>
      rw [hold] at heq
      rw [activeSorted_cons_none heq, activeSorted_cons_none hold, ih hrest]
    | some rs =>
      rw [hold] at heq
      by_cases he : rs.isEmpty = true
      · rw [activeSorted_cons_empty heq he, activeSorted_cons_empty hold he, ih hrest]
      · rw [activeSorted_cons_some heq he, activeSorted_cons_some hold he, ih hrest]

/-- Adding an UP report to any charger only grows the station's covered
cells. -/
lemma cov_addReport_up {c : Calculator} {cid : ℤ} {r : ChargerReport}
    (hu : r.is_up = true) :
    ∀ (cids : List ℤ) (k : ℤ),
      covers (stationIntervals (activeSorted c cids)) k →
      covers (stationIntervals (activeSorted (addReport c cid r) cids)) k := by
  intro cids
  induction cids with
  | nil => intro k h; exact h
  | cons cid2 rest ih =>
    intro k h
    by_cases hc : cid2 = cid
    · subst hc
      have hnew := alookup_appendReport_same c.charger_reports cid2 r
      cases hold : alookup c.charger_reports cid2 with
      | none =>
        rw [hold] at hnew
        have hnew2 : alookup (addReport c cid2 r).charger_reports cid2
            = some ([] ++ [r]) := hnew
        rw [activeSorted_cons_none hold] at h
        rw [activeSorted_cons_some hnew2 (by simp), stationIntervals_cons,
          covers_append]
        exact Or.inr (ih k h)
      | some rs =>
        rw [hold] at hnew
        have hnew2 : alookup (addReport c cid2 r).charger_reports cid2
            = some (rs ++ [r]) := hnew
        have hne2 : ¬(rs ++ [r]).isEmpty = true := by
          simp
        by_cases he : rs.isEmpty = true
        · rw [activeSorted_cons_empty hold he] at h
          rw [activeSorted_cons_some hnew2 hne2, stationIntervals_cons,
            covers_append]
          exact Or.inr (ih k h)
        · rw [activeSorted_cons_some hold he] at h
          rw [activeSorted_cons_some hnew2 hne2, stationIntervals_cons,
            covers_append]
          rw [stationIntervals_cons, covers_append] at h
          rcases h with h | h
          · exact Or.inl (reconcile_append_up_cov hu k h)
          · exact Or.inr (ih k h)
    · have heq : alookup (addReport c cid r).charger_reports cid2
          = alookup c.charger_reports cid2 :=
        alookup_appendReport_other _ _ _ _ hc
      cases hold : alookup c.charger_reports cid2 with
      | none =>
        rw [hold] at heq
        rw [activeSorted_cons_none hold] at h
        rw [activeSorted_cons_none heq]
        exact ih k h
      | some rs =>
        rw [hold] at heq
        by_cases he : rs.isEmpty = true
        · rw [activeSorted_cons_empty hold he] at h
          rw [activeSorted_cons_empty heq he]
          exact ih k h
        · rw [activeSorted_cons_some hold he] at h
          rw [activeSorted_cons_some heq he]
          rw [stationIntervals_cons, covers_append] at h ⊢
          rcases h with h | h
          · exact Or.inl h
          · exact Or.inr (ih k h)

/-- Adding a DOWN report to any charger only shrinks the station's covered
cells. -/
lemma cov_addReport_down {c : Calculator} {cid : ℤ} {r : ChargerReport}
    (hu : r.is_up = false) :
    ∀ (cids : List ℤ) (k : ℤ),
      covers (stationIntervals (activeSorted (addReport c cid r) cids)) k →
      covers (stationIntervals (activeSorted c cids)) k := by
  intro cids
  induction cids with
  | nil => intro k h; exact h
  | cons cid2 rest ih =>
    intro k h
    by_cases hc : cid2 = cid
    · subst hc
      have hnew := alookup_appendReport_same c.charger_reports cid2 r
      cases hold : alookup c.charger_reports cid2 with
      | none =>
        rw [hold] at hnew
        have hnew2 : alookup (addReport c cid2 r).charger_reports cid2
            = some ([] ++ [r]) := hnew
        rw [activeSorted_cons_none hold]
        rw [activeSorted_cons_some hnew2 (by simp), stationIntervals_cons,
          covers_append] at h
        rcases h with h | h
        · exfalso
          have hrec : reconcile (sortReports ([] ++ [r])) = [] := by
            apply reconcile_no_up
            intro x hx
            rcases List.mem_singleton.mp (mem_sortReports.mp hx) with rfl
            exact hu
          rw [hrec] at h
          exact covers_nil h
        · exact ih k h
      | some rs =>
        rw [hold] at hnew
        have hnew2 : alookup (addReport c cid2 r).charger_reports cid2
            = some (rs ++ [r]) := hnew
        have hne2 : ¬(rs ++ [r]).isEmpty = true := by
          simp
        by_cases he : rs.isEmpty = true
        · have hrs : rs = [] := List.isEmpty_iff.mp he
          subst hrs
          rw [activeSorted_cons_empty hold he]
          rw [activeSorted_cons_some hnew2 hne2, stationIntervals_cons,
            covers_append] at h
          rcases h with h | h
          · exfalso
            have hrec : reconcile (sortReports ([] ++ [r])) = [] := by
              apply reconcile_no_up
              intro x hx
              rcases List.mem_singleton.mp (mem_sortReports.mp hx) with rfl
              exact hu
            rw [hrec] at h
            exact covers_nil h
          · exact ih k h
        · rw [activeSorted_cons_some hold he]
          rw [activeSorted_cons_some hnew2 hne2, stationIntervals_cons,
            covers_append] at h
          rw [stationIntervals_cons, covers_append]
          rcases h with h | h
          · exact Or.inl (reconcile_append_down_cov hu k h)
          · exact Or.inr (ih k h)
    · have heq : alookup (addReport c cid r).charger_reports cid2
          = alookup c.charger_reports cid2 :=
        alookup_appendReport_other _ _ _ _ hc
      cases hold : alookup c.charger_reports cid2 with
      | none =>
        rw [hold] at heq
        rw [activeSorted_cons_none hold]
        rw [activeSorted_cons_none heq] at h
        exact ih k h
      | some rs =>
        rw [hold] at heq
        by_cases he : rs.isEmpty = true
        · rw [activeSorted_cons_empty hold he]
          rw [activeSorted_cons_empty heq he] at h
          exact ih k h
        · rw [activeSorted_cons_some hold he]
          rw [activeSorted_cons_some heq he] at h
          rw [stationIntervals_cons, covers_append] at h ⊢
          rcases h with h | h
          · exact Or.inl h
          · exact Or.inr (ih k h)

/-- Every report visible after the addition was visible before, or is the
new report itself. -/
lemma mem_flatten_addReport {c : Calculator} {cid : ℤ} {r : ChargerReport} :
    ∀ (cids : List ℤ) (x : ChargerReport),
      x ∈ (activeSorted (addReport c cid r) cids).flatten →
      x ∈ (activeSorted c cids).flatten ∨ x = r := by
  intro cids
  induction cids with
  | nil => intro x h; exact Or.inl h
  | cons cid2 rest ih =>
    intro x h
    by_cases hc : cid2 = cid
    · subst hc
      have hnew := alookup_appendReport_same c.charger_reports cid2 r
      cases hold : alookup c.charger_reports cid2 with
      | none =>
        rw [hold] at hnew
        have hnew2 : alookup (addReport c cid2 r).charger_reports cid2
            = some ([] ++ [r]) := hnew
        rw [activeSorted_cons_some hnew2 (by simp), List.flatten_cons] at h
        rw [activeSorted_cons_none hold]
        rcases List.mem_append.mp h with h | h
        · have h2 := mem_sortReports.mp h
          rcases List.mem_singleton.mp (by simpa using h2) with rfl
          exact Or.inr rfl
        · exact ih x h
      | some rs =>
        rw [hold] at hnew
        have hnew2 : alookup (addReport c cid2 r).charger_reports cid2
            = some (rs ++ [r]) := hnew
        by_cases he : rs.isEmpty = true
        · have hrs : rs = [] := List.isEmpty_iff.mp he
          subst hrs
          rw [activeSorted_cons_some hnew2 (by simp), List.flatten_cons] at h
          rw [activeSorted_cons_empty hold he]
          rcases List.mem_append.mp h with h | h
          · have h2 := mem_sortReports.mp h
            rcases List.mem_singleton.mp (by simpa using h2) with rfl
            exact Or.inr rfl
          · exact ih x h
        · rw [activeSorted_cons_some hnew2 (by simp), List.flatten_cons] at h
          rw [activeSorted_cons_some hold he, List.flatten_cons]
          rcases List.mem_append.mp h with h | h
          · have h2 := mem_sortReports.mp h
            rcases List.mem_append.mp h2 with h3 | h3
            · exact Or.inl (List.mem_append.mpr
                (Or.inl (mem_sortReports.mpr h3)))
            · rcases List.mem_singleton.mp h3 with rfl
              exact Or.inr rfl
          · rcases ih x h with h | h
            · exact Or.inl (List.mem_append.mpr (Or.inr h))
            · exact Or.inr h
    · have heq : alookup (addReport c cid r).charger_reports cid2
          = alookup c.charger_reports cid2 :=
        alookup_appendReport_other _ _ _ _ hc
      cases hold : alookup c.charger_reports cid2 with
      | none =>
        rw [hold] at heq
        rw [activeSorted_cons_none heq] at h
        rw [activeSorted_cons_none hold]
        exact ih x h
      | some rs =>
        rw [hold] at heq
        by_cases he : rs.isEmpty = true
        · rw [activeSorted_cons_empty heq he] at h
          rw [activeSorted_cons_empty hold he]
          exact ih x h
        · rw [activeSorted_cons_some heq he, List.flatten_cons] at h
          rw [activeSorted_cons_some hold he, List.flatten_cons]
          rcases List.mem_append.mp h with h | h
          · exact Or.inl (List.mem_append.mpr (Or.inl h))
          · rcases ih x h with h | h
            · exact Or.inl (List.mem_append.mpr (Or.inr h))
            · exact Or.inr h

/-- Every previously visible report stays visible after the addition. -/
lemma mem_flatten_addReport_rev {c : Calculator} {cid : ℤ} {r : ChargerReport} :
    ∀ (cids : List ℤ) (x : ChargerReport),
      x ∈ (activeSorted c cids).flatten →
      x ∈ (activeSorted (addReport c cid r) cids).flatten := by
  intro cids
  induction cids with
  | nil => intro x h; exact h
  | cons cid2 rest ih =>
    intro x h
    by_cases hc : cid2 = cid
    · subst hc
      have hnew := alookup_appendReport_same c.charger_reports cid2 r
      cases hold : alookup c.charger_reports cid2 with
      | none =>
        rw [hold] at hnew
        have hnew2 : alookup (addReport c cid2 r).charger_reports cid2
            = some ([] ++ [r]) := hnew
        rw [activeSorted_cons_none hold] at h
        rw [activeSorted_cons_some hnew2 (by simp), List.flatten_cons]
        exact List.mem_append.mpr (Or.inr (ih x h))
      | some rs =>
        rw [hold] at hnew
        have hnew2 : alookup (addReport c cid2 r).charger_reports cid2
            = some (rs ++ [r]) := hnew
        by_cases he : rs.isEmpty = true
        · rw [activeSorted_cons_empty hold he] at h
          rw [activeSorted_cons_some hnew2 (by simp), List.flatten_cons]
          exact List.mem_append.mpr (Or.inr (ih x h))
        · rw [activeSorted_cons_some hold he, List.flatten_cons] at h
          rw [activeSorted_cons_some hnew2 (by simp), List.flatten_cons]
          rcases List.mem_append.mp h with h | h
          · refine List.mem_append.mpr (Or.inl ?_)
            exact mem_sortReports.mpr
              (List.mem_append.mpr (Or.inl (mem_sortReports.mp h)))
          · exact List.mem_append.mpr (Or.inr (ih x h))
    · have heq : alookup (addReport c cid r).charger_reports cid2
          = alookup c.charger_reports cid2 :=
        alookup_appendReport_other _ _ _ _ hc
      cases hold : alookup c.charger_reports cid2 with
      | none =>
        rw [hold] at heq
        rw [activeSorted_cons_none hold] at h
        rw [activeSorted_cons_none heq]
        exact ih x h
      | some rs =>
        rw [hold] at heq
        by_cases he : rs.isEmpty = true
        · rw [activeSorted_cons_empty hold he] at h
          rw [activeSorted_cons_empty heq he]
          exact ih x h
        · rw [activeSorted_cons_some hold he, List.flatten_cons] at h
          rw [activeSorted_cons_some heq he, List.flatten_cons]
          rcases List.mem_append.mp h with h | h
          · exact List.mem_append.mpr (Or.inl h)
          · exact List.mem_append.mpr (Or.inr (ih x h))

lemma activeSorted_addReport_ne_nil {c : Calculator} {cid : ℤ} {r : ChargerReport}
    {cids : List ℤ} (h : activeSorted c cids ≠ []) :
    activeSorted (addReport c cid r) cids ≠ [] := by
  intro hnil
  have hfl := flatten_ne_nil h
  cases hx : (activeSorted c cids).flatten with
  | nil => exact hfl hx
  | cons x xs =>
    have hxm : x ∈ (activeSorted c cids).flatten := by
      rw [hx]; exact List.mem_cons_self x xs
    have h2 : x ∈ (activeSorted (addReport c cid r) cids).flatten :=
      mem_flatten_addReport_rev cids x hxm
    rw [hnil] at h2
    simp at h2

lemma startsOf_ne_nil {c : Calculator} {cids : List ℤ}
    (h : activeSorted c cids ≠ []) : startsOf (activeSorted c cids) ≠ [] := by
  have hf := flatten_ne_nil h
  unfold startsOf
  intro hnil
  exact hf (List.map_eq_nil.mp hnil)

lemma endsOf_ne_nil {c : Calculator} {cids : List ℤ}
    (h : activeSorted c cids ≠ []) : endsOf (activeSorted c cids) ≠ [] := by
  have hf := flatten_ne_nil h
  unfold endsOf
  intro hnil
  exact hf (List.map_eq_nil.mp hnil)

lemma mem_startsOf_iff {act : List (List ChargerReport)} {s : ℤ} :
    s ∈ startsOf act ↔ ∃ x ∈ act.flatten, x.start_time = s := by
  unfold startsOf
  exact List.mem_map

lemma mem_endsOf_iff {act : List (List ChargerReport)} {s : ℤ} :
    s ∈ endsOf act ↔ ∃ x ∈ act.flatten, x.end_time = s := by
  unfold endsOf
  exact List.mem_map

/-- Adding a report inside the observed window keeps the minimum. -/
lemma listMin_starts_addReport_eq {c : Calculator} {cid : ℤ} {r : ChargerReport}
    {cids : List ℤ} (hact : activeSorted c cids ≠ [])
    (hmin : listMin (startsOf (activeSorted c cids)) ≤ r.start_time) :
    listMin (startsOf (activeSorted (addReport c cid r) cids))
      = listMin (startsOf (activeSorted c cids)) := by
  apply le_antisymm
  · obtain ⟨x, hx, hxs⟩ := mem_startsOf_iff.mp (listMin_mem (startsOf_ne_nil hact))
    rw [← hxs]
    exact listMin_le (mem_startsOf_iff.mpr ⟨x, mem_flatten_addReport_rev cids x hx, rfl⟩)
  · obtain ⟨x, hx, hxs⟩ := mem_startsOf_iff.mp
      (listMin_mem (startsOf_ne_nil (activeSorted_addReport_ne_nil hact)))
    rcases mem_flatten_addReport cids x hx with h | h
    · rw [← hxs]
      exact listMin_le (mem_startsOf_iff.mpr ⟨x, h, rfl⟩)
    · rw [← hxs, h]
      exact hmin

/-- Adding a report inside the observed window keeps the maximum. -/
lemma listMax_ends_addReport_eq {c : Calculator} {cid : ℤ} {r : ChargerReport}
    {cids : List ℤ} (hact : activeSorted c cids ≠ [])
    (hmax : r.end_time ≤ listMax (endsOf (activeSorted c cids))) :
    listMax (endsOf (activeSorted (addReport c cid r) cids))
      = listMax (endsOf (activeSorted c cids)) := by
  apply le_antisymm
  · obtain ⟨x, hx, hxs⟩ := mem_endsOf_iff.mp
      (listMax_mem (endsOf_ne_nil (activeSorted_addReport_ne_nil hact)))
    rcases mem_flatten_addReport cids x hx with h | h
    · rw [← hxs]
      exact le_listMax (mem_endsOf_iff.mpr ⟨x, h, rfl⟩)
    · rw [← hxs, h]
      exact hmax
  · obtain ⟨x, hx, hxs⟩ := mem_endsOf_iff.mp (listMax_mem (endsOf_ne_nil hact))
    rw [← hxs]
    exact le_listMax (mem_endsOf_iff.mpr ⟨x, mem_flatten_addReport_rev cids x hx, rfl⟩)

/-- Adding any report can only move the minimum down. -/
lemma listMin_starts_addReport_le {c : Calculator} {cid : ℤ} {r : ChargerReport}
    {cids : List ℤ} (hact : activeSorted c cids ≠ []) :
    listMin (startsOf (activeSorted (addReport c cid r) cids))
      ≤ listMin (startsOf (activeSorted c cids)) := by
  obtain ⟨x, hx, hxs⟩ := mem_startsOf_iff.mp (listMin_mem (startsOf_ne_nil hact))
  rw [← hxs]
  exact listMin_le (mem_startsOf_iff.mpr ⟨x, mem_flatten_addReport_rev cids x hx, rfl⟩)

/-- Adding any report can only move the maximum up. -/
lemma listMax_ends_addReport_ge {c : Calculator} {cid : ℤ} {r : ChargerReport}
    {cids : List ℤ} (hact : activeSorted c cids ≠ []) :
    listMax (endsOf (activeSorted c cids))
      ≤ listMax (endsOf (activeSorted (addReport c cid r) cids)) := by
  obtain ⟨x, hx, hxs⟩ := mem_endsOf_iff.mp (listMax_mem (endsOf_ne_nil hact))
  rw [← hxs]
  exact le_listMax (mem_endsOf_iff.mpr ⟨x, mem_flatten_addReport_rev cids x hx, rfl⟩)

/-! ### The degenerate (single-instant) window -/

lemma flatten_all_instant {c : Calculator} {cids : List ℤ} (hwf : ReportsWF c)
    (hinst : listMin (startsOf (activeSorted c cids))
      = listMax (endsOf (activeSorted c cids)))
    {x : ChargerReport} (hx : x ∈ (activeSorted c cids).flatten) :
    x.start_time = listMin (startsOf (activeSorted c cids)) ∧
      x.end_time = listMin (startsOf (activeSorted c cids)) := by
  have h1 : listMin (startsOf (activeSorted c cids)) ≤ x.start_time :=
    listMin_le (List.mem_map.mpr ⟨x, hx, rfl⟩)
  have h2 : x.end_time ≤ listMax (endsOf (activeSorted c cids)) :=
    le_listMax (List.mem_map.mpr ⟨x, hx, rfl⟩)
  have h3 := wf_of_mem_flatten hwf hx
  omega

/-- In the degenerate window, any UP report witnesses a confirmed interval
containing the instant. -/
lemma instant_any_of_up {c : Calculator} {cids : List ℤ} (hwf : ReportsWF c)
    (hinst : listMin (startsOf (activeSorted c cids))
      = listMax (endsOf (activeSorted c cids)))
    {x : ChargerReport} (hx : x ∈ (activeSorted c cids).flatten)
    (hup : x.is_up = true) :
    ∃ iv ∈ stationIntervals (activeSorted c cids),
      iv.1 ≤ listMin (startsOf (activeSorted c cids)) ∧
        listMin (startsOf (activeSorted c cids)) ≤ iv.2 := by
  obtain ⟨entry, hentry, hxe⟩ := List.mem_flatten.mp hx
  have hall : ∀ y ∈ entry,
      y.start_time = listMin (startsOf (activeSorted c cids)) ∧
        y.end_time = listMin (startsOf (activeSorted c cids)) := fun y hy =>
    flatten_all_instant hwf hinst (List.mem_flatten.mpr ⟨entry, hentry, hy⟩)
  have hfold := reconcile_all_instant
    (listMin (startsOf (activeSorted c cids))) entry [] hall (by simp)
  refine ⟨(x.start_time, x.end_time), ?_, ?_⟩
  · unfold stationIntervals
    rw [List.mem_flatten]
    refine ⟨reconcile entry, List.mem_map.mpr ⟨entry, hentry, rfl⟩, ?_⟩
    unfold reconcile
    rw [hfold]
    rw [List.nil_append, List.mem_map]
    exact ⟨x, List.mem_filter.mpr ⟨hxe, hup⟩, rfl⟩
  · have hx2 := hall x hxe
    constructor <;> simp only [] <;> omega

/-- The added report is visible when its charger is a member. -/
lemma addReport_mem_flatten {c : Calculator} {cid : ℤ} {r : ChargerReport}
    {cids : List ℤ} (hc : cid ∈ cids) :
    r ∈ (activeSorted (addReport c cid r) cids).flatten := by
  have hnew := alookup_appendReport_same c.charger_reports cid r
  have hentry : sortReports ((alookup c.charger_reports cid).getD [] ++ [r])
      ∈ activeSorted (addReport c cid r) cids :=
    activeSorted_mem_of hc hnew (by simp)
  exact List.mem_flatten.mpr ⟨_, hentry,
    mem_sortReports.mpr (List.mem_append.mpr (Or.inr (List.mem_singleton.mpr rfl)))⟩

/-- With no up reports at all, a station confirms no intervals. -/
lemma stationIntervals_eq_nil_of_no_up {c : Calculator} {cids : List ℤ}
    (h : ∀ x ∈ (activeSorted c cids).flatten, x.is_up = false) :
    stationIntervals (activeSorted c cids) = [] := by
  unfold stationIntervals
  have hgen : ∀ act : List (List ChargerReport),
      (∀ x ∈ act.flatten, x.is_up = false) → (act.map reconcile).flatten = [] := by
    intro act
    induction act with
    | nil => intro _; rfl
    | cons e rest ih =>
      intro hall
      rw [List.map_cons, List.flatten_cons]
      have he : reconcile e = [] := reconcile_no_up e (fun x hx =>
        hall x (by rw [List.flatten_cons]; exact List.mem_append.mpr (Or.inl hx)))
      rw [he, ih (fun x hx =>
        hall x (by rw [List.flatten_cons]; exact List.mem_append.mpr (Or.inr hx)))]
      rfl
  exact hgen _ h

/-- A station with no confirmed intervals scores 0. -/
lemma stationResult_of_no_intervals {c : Calculator} {cids : List ℤ}
    (h : stationIntervals (activeSorted c cids) = []) :
    stationResult c cids = 0 := by
  rw [stationResult]
  split_ifs with h1 h2 h3
  · rfl
  · rw [h] at h3
    simp at h3
  · rfl
  · rw [h]
    have h0 : sumLengths (_merge_intervals ([] : List (ℤ × ℤ))) = 0 := rfl
    rw [h0]
    apply floatPct_zero
    omega

/-! ### Station-result monotonicity under one added report -/

/-- Adding one UP report whose span lies inside the station's observed
window cannot decrease the station's percentage. -/
lemma stationResult_addReport_up_mono {c : Calculator} {cid : ℤ} {r : ChargerReport}
    {cids : List ℤ} (hwf : ReportsWF c) (hr : r.start_time ≤ r.end_time)
    (hu : r.is_up = true)
    (hwin : activeSorted c cids ≠ [] →
      listMin (startsOf (activeSorted c cids)) ≤ r.start_time ∧
        r.end_time ≤ listMax (endsOf (activeSorted c cids))) :
    stationResult c cids ≤ stationResult (addReport c cid r) cids := by
  have hwf2 : ReportsWF (addReport c cid r) := ReportsWF_addReport hwf hr
  by_cases hmem : cid ∈ cids
  case neg =>
    unfold stationResult
    rw [activeSorted_addReport_not_mem cids hmem]
  case pos =>
  by_cases hact : (activeSorted c cids).isEmpty
  · have holdeq : stationResult c cids = 0 := by
      rw [stationResult, if_pos hact]
    rw [holdeq]
    exact (stationResult_bounds hwf2 cids).1
  · have hactne : activeSorted c cids ≠ [] := fun h0 => hact (by rw [h0]; rfl)
    obtain ⟨hminw, hmaxw⟩ := hwin hactne
    have hminEq : listMin (startsOf (activeSorted (addReport c cid r) cids))
        = listMin (startsOf (activeSorted c cids)) :=
      listMin_starts_addReport_eq hactne hminw
    have hmaxEq : listMax (endsOf (activeSorted (addReport c cid r) cids))
        = listMax (endsOf (activeSorted c cids)) :=
      listMax_ends_addReport_eq hactne hmaxw
    have hactne2 : activeSorted (addReport c cid r) cids ≠ [] :=
      activeSorted_addReport_ne_nil hactne
    have hact2 : ¬(activeSorted (addReport c cid r) cids).isEmpty = true :=
      fun h0 => hactne2 (List.isEmpty_iff.mp h0)
    by_cases hinst : listMin (startsOf (activeSorted c cids))
        = listMax (endsOf (activeSorted c cids))
    · have hinst2 : listMin (startsOf (activeSorted (addReport c cid r) cids))
          = listMax (endsOf (activeSorted (addReport c cid r) cids)) := by
        rw [hminEq, hmaxEq]
        exact hinst
      have hrmem : r ∈ (activeSorted (addReport c cid r) cids).flatten :=
        addReport_mem_flatten hmem
      obtain ⟨iv, hivmem, hiv1, hiv2⟩ := instant_any_of_up hwf2 hinst2 hrmem hu
      have hanynew : (stationIntervals (activeSorted (addReport c cid r) cids)).any
          (fun iv =>
            decide (iv.1 ≤ listMin (startsOf (activeSorted (addReport c cid r) cids))) &&
              decide (listMin (startsOf (activeSorted (addReport c cid r) cids)) ≤ iv.2))
          = true := by
        rw [List.any_eq_true]
        exact ⟨iv, hivmem, by simp [hiv1, hiv2]⟩
      have hneweq : stationResult (addReport c cid r) cids = 100 := by
        rw [stationResult, if_neg hact2, if_pos hinst2, if_pos hanynew]
      have holdle : stationResult c cids ≤ 100 := (stationResult_bounds hwf cids).2
      omega
    · have hinst2 : ¬(listMin (startsOf (activeSorted (addReport c cid r) cids))
          = listMax (endsOf (activeSorted (addReport c cid r) cids))) := by
        rw [hminEq, hmaxEq]
        exact hinst
      rw [stationResult, if_neg hact, if_neg hinst]
      rw [stationResult, if_neg hact2, if_neg hinst2]
      rw [hminEq, hmaxEq]
      have hminmax := minT_le_maxT hwf hactne
      have htot : 0 < listMax (endsOf (activeSorted c cids)) -
          listMin (startsOf (activeSorted c cids)) := by omega
      have hbOld := stationIntervals_bounds hwf cids
      have hbNew := stationIntervals_bounds hwf2 cids
      rw [hminEq, hmaxEq] at hbNew
      have hsum := sum_merge_le_sum_merge hbOld hbNew (cov_addReport_up hu cids)
      have h0 : 0 ≤ sumLengths (_merge_intervals
          (stationIntervals (activeSorted c cids))) :=
        sumLengths_nonneg (merge_wf (fun iv hm => (hbOld iv hm).2.1))
      exact floatPct_mono_up h0 hsum htot

/-- Adding one DOWN report cannot increase the station's percentage. -/
lemma stationResult_addReport_down_mono {c : Calculator} {cid : ℤ}
    {r : ChargerReport} {cids : List ℤ} (hwf : ReportsWF c)
    (hr : r.start_time ≤ r.end_time) (hu : r.is_up = false) :
    stationResult (addReport c cid r) cids ≤ stationResult c cids := by
  have hwf2 : ReportsWF (addReport c cid r) := ReportsWF_addReport hwf hr
  by_cases hmem : cid ∈ cids
  case neg =>
    unfold stationResult
    rw [activeSorted_addReport_not_mem cids hmem]
  case pos =>
  by_cases hact : (activeSorted c cids).isEmpty
  · have hflatold : (activeSorted c cids).flatten = [] := by
      have h0 : activeSorted c cids = [] := List.isEmpty_iff.mp hact
      rw [h0]
      rfl
    have hdownall : ∀ x ∈ (activeSorted (addReport c cid r) cids).flatten,
        x.is_up = false := by
      intro x hx
      rcases mem_flatten_addReport cids x hx with h | h
      · rw [hflatold] at h
        simp at h
      · rw [h]
        exact hu
    have hivs := stationIntervals_eq_nil_of_no_up hdownall
    rw [stationResult_of_no_intervals hivs]
    exact (stationResult_bounds hwf cids).1
  · have hactne : activeSorted c cids ≠ [] := fun h0 => hact (by rw [h0]; rfl)
    have hactne2 : activeSorted (addReport c cid r) cids ≠ [] :=
      activeSorted_addReport_ne_nil hactne
    have hact2 : ¬(activeSorted (addReport c cid r) cids).isEmpty = true :=
      fun h0 => hactne2 (List.isEmpty_iff.mp h0)
    have hminle : listMin (startsOf (activeSorted (addReport c cid r) cids))
        ≤ listMin (startsOf (activeSorted c cids)) :=
      listMin_starts_addReport_le hactne
    have hmaxge : listMax (endsOf (activeSorted c cids))
        ≤ listMax (endsOf (activeSorted (addReport c cid r) cids)) :=
      listMax_ends_addReport_ge hactne
    by_cases hinst : listMin (startsOf (activeSorted c cids))
        = listMax (endsOf (activeSorted c cids))
    · by_cases hany : (stationIntervals (activeSorted c cids)).any
          (fun iv =>
            decide (iv.1 ≤ listMin (startsOf (activeSorted c cids))) &&
              decide (listMin (startsOf (activeSorted c cids)) ≤ iv.2)) = true
      · have holdeq : stationResult c cids = 100 := by
          rw [stationResult, if_neg hact, if_pos hinst, if_pos hany]
        rw [holdeq]
        exact (stationResult_bounds hwf2 cids).2
      · have hnoup : ∀ x ∈ (activeSorted c cids).flatten, x.is_up = false := by
          intro x hx
          by_contra hxup
          have hxup2 : x.is_up = true := by
            revert hxup
            cases x.is_up <;> simp
          obtain ⟨iv, hivm, h1, h2⟩ := instant_any_of_up hwf hinst hx hxup2
          apply hany
          rw [List.any_eq_true]
          exact ⟨iv, hivm, by simp [h1, h2]⟩
        have hnoupnew : ∀ x ∈ (activeSorted (addReport c cid r) cids).flatten,
            x.is_up = false := by
          intro x hx
          rcases mem_flatten_addReport cids x hx with h | h
          · exact hnoup x h
          · rw [h]
            exact hu
        have hivsnew := stationIntervals_eq_nil_of_no_up hnoupnew
        have holdeq : stationResult c cids = 0 := by
          rw [stationResult, if_neg hact, if_pos hinst, if_neg hany]
        rw [holdeq, stationResult_of_no_intervals hivsnew]
    · have hminmax := minT_le_maxT hwf hactne
      have hinst2 : ¬(listMin (startsOf (activeSorted (addReport c cid r) cids))
          = listMax (endsOf (activeSorted (addReport c cid r) cids))) := by
        omega
      rw [stationResult, if_neg hact2, if_neg hinst2]
      rw [stationResult, if_neg hact, if_neg hinst]
      have hbOld := stationIntervals_bounds hwf cids
      have hbNew := stationIntervals_bounds hwf2 cids
      have hsum := sum_merge_le_sum_merge hbNew hbOld (cov_addReport_down hu cids)
      have h0new : 0 ≤ sumLengths (_merge_intervals
          (stationIntervals (activeSorted (addReport c cid r) cids))) :=
        sumLengths_nonneg (merge_wf (fun iv hm => (hbNew iv hm).2.1))
      have h0old : 0 ≤ sumLengths (_merge_intervals
          (stationIntervals (activeSorted c cids))) :=
        sumLengths_nonneg (merge_wf (fun iv hm => (hbOld iv hm).2.1))
      have htotOld : 0 < listMax (endsOf (activeSorted c cids)) -
          listMin (startsOf (activeSorted c cids)) := by omega
      have htotNew : 0 < listMax (endsOf (activeSorted (addReport c cid r) cids)) -
          listMin (startsOf (activeSorted (addReport c cid r) cids)) := by omega
      calc floatPct (sumLengths (_merge_intervals
              (stationIntervals (activeSorted (addReport c cid r) cids))))
            (listMax (endsOf (activeSorted (addReport c cid r) cids)) -
              listMin (startsOf (activeSorted (addReport c cid r) cids)))
          ≤ floatPct (sumLengths (_merge_intervals
              (stationIntervals (activeSorted c cids))))
            (listMax (endsOf (activeSorted (addReport c cid r) cids)) -
              listMin (startsOf (activeSorted (addReport c cid r) cids))) :=
            floatPct_mono_up h0new hsum htotNew
        _ ≤ floatPct (sumLengths (_merge_intervals
              (stationIntervals (activeSorted c cids))))
            (listMax (endsOf (activeSorted c cids)) -
              listMin (startsOf (activeSorted c cids))) :=
            floatPct_anti_total h0old htotOld (by omega)

/-! ### Parser: acceptance is exactly structural validity -/

lemma parseTokens_isSome :
    ∀ l : List String, (parseTokens l).isSome = true ↔
      ∀ t ∈ l, (parseIntToken t).isSome = true := by
  intro l
  induction l with
  | nil => simp [parseTokens]
  | cons t ts ih =>
    rw [parseTokens]
    cases hft : parseIntToken t with
    | none =>
      show (none : Option (List ℤ)).isSome = true ↔
        ∀ x ∈ t :: ts, (parseIntToken x).isSome = true
      constructor
      · intro h
        simp at h
      · intro h
        have h2 := h t (List.mem_cons_self t ts)
        rw [hft] at h2
        simp at h2
    | some v =>
      cases hts : parseTokens ts with
      | none =>
        show (none : Option (List ℤ)).isSome = true ↔
          ∀ x ∈ t :: ts, (parseIntToken x).isSome = true
        constructor
        · intro h
          simp at h
        · intro h
          have h2 : ∀ x ∈ ts, (parseIntToken x).isSome = true := by
            intro x hx
            exact h x (List.mem_cons_of_mem t hx)
          have h3 := ih.mpr h2
          rw [hts] at h3
          simp at h3
      | some vs =>
        show (some (v :: vs)).isSome = true ↔
          ∀ x ∈ t :: ts, (parseIntToken x).isSome = true
        constructor
        · intro _
          intro x hx
          rcases List.mem_cons.mp hx with rfl | hx2
          · rw [hft]
            rfl
          · exact ih.mp (by rw [hts]; rfl) x hx2
        · intro _
          rfl

lemma parseTokens_ne_nil (t : String) (ts : List String) :
    ¬parseTokens (t :: ts) = some [] := by
  rw [parseTokens]
  cases hft : parseIntToken t with
  | none =>
    show ¬(none : Option (List ℤ)) = some []
    simp
  | some v =>
    cases hts : parseTokens ts with
    | none =>
      show ¬(none : Option (List ℤ)) = some []
      simp
    | some vs =>
      show ¬some (v :: vs) = some []
      simp

lemma parseStationLine_short {line : String} (hl : (splitWS line).length < 2) :
    parseStationLine line = Except.error () := by
  unfold parseStationLine
  rw [if_pos hl]

lemma parseStationLine_badTok {line : String} (hl : ¬(splitWS line).length < 2)
    (hm : parseTokens (splitWS line) = none) :
    parseStationLine line = Except.error () := by
  unfold parseStationLine
  rw [if_neg hl, hm]

lemma parseStationLine_okEq {line : String} (hl : ¬(splitWS line).length < 2)
    {sid : ℤ} {cs : List ℤ} (hm : parseTokens (splitWS line) = some (sid :: cs)) :
    parseStationLine line = Except.ok (sid, cs.dedup) := by
  unfold parseStationLine
  rw [if_neg hl, hm]

lemma parseStationLine_ok_iff {line : String} (hb : ¬line.trim = "") :
    (parseStationLine line).isOk = true ↔ goodStationLine line = true := by
  have hbeq : (line.trim == "") = false := by
    rw [beq_eq_false_iff_ne]
    exact hb
  have hgood : goodStationLine line =
      (decide (2 ≤ (splitWS line).length) &&
        (splitWS line).all (fun t => (parseIntToken t).isSome)) := by
    unfold goodStationLine
    rw [hbeq, Bool.false_or]
  rw [hgood]
  by_cases hl : (splitWS line).length < 2
  · rw [parseStationLine_short hl]
    have h2 : decide (2 ≤ (splitWS line).length) = false := by
      rw [decide_eq_false_iff_not]
      omega
    rw [h2, Bool.false_and]
    simp [Except.isOk, Except.toBool]
  · have h2 : decide (2 ≤ (splitWS line).length) = true := by
      rw [decide_eq_true_eq]
      omega
    rw [h2, Bool.true_and]
    cases hm : parseTokens (splitWS line) with
    | none =>
      rw [parseStationLine_badTok hl hm]
      constructor
      · intro h
        simp [Except.isOk, Except.toBool] at h
      · intro h
        rw [List.all_eq_true] at h
        have h3 := (parseTokens_isSome (splitWS line)).mpr h
        rw [hm] at h3
        simp at h3
    | some ids =>
      cases ids with
      | nil =>
        exfalso
        cases hsp : splitWS line with
        | nil =>
          rw [hsp] at hl
          simp at hl
        | cons p ps =>
          rw [hsp] at hm
          exact parseTokens_ne_nil p ps hm
      | cons sid cs =>
        rw [parseStationLine_okEq hl hm]
        constructor
        · intro _
          rw [List.all_eq_true]
          intro t ht
          exact (parseTokens_isSome (splitWS line)).mp (by rw [hm]; rfl) t ht
        · intro _
          rfl

lemma parseStations_ok_iff :
    ∀ (lines : List String) (acc : List (ℤ × List ℤ)),
      (parseStations lines acc).isOk = true ↔
        ∀ line ∈ lines, goodStationLine line = true := by
  intro lines
  induction lines with
  | nil =>
    intro acc
    simp [parseStations, Except.isOk, Except.toBool]
  | cons line rest ih =>
    intro acc
    rw [parseStations]
    by_cases hb : line.trim = ""
    · rw [if_pos hb]
      have hgood : goodStationLine line = true := by
        unfold goodStationLine
        rw [show (line.trim == "") = true from by rw [beq_iff_eq]; exact hb]
        rfl
      rw [ih acc]
      simp [hgood]
    · rw [if_neg hb]
      cases hp : parseStationLine line with
      | error e =>
        have hbad : ¬goodStationLine line = true := by
          rw [← parseStationLine_ok_iff hb, hp]
          simp [Except.isOk, Except.toBool]
        simp only [List.forall_mem_cons]
        constructor
        · intro h
          simp [Except.isOk, Except.toBool] at h
        · intro h
          exact absurd h.1 hbad
      | ok sc =>
        have hgood : goodStationLine line = true := by
          rw [← parseStationLine_ok_iff hb, hp]
          rfl
        rw [ih]
        simp [hgood]

lemma parseReportLine_ok_iff {line : String} (hb : ¬line.trim = "") :
    (parseReportLine line).isOk = true ↔ goodReportLine line = true := by
  have hbeq : (line.trim == "") = false := by
    rw [beq_eq_false_iff_ne]
    exact hb
  unfold parseReportLine goodReportLine
  rw [hbeq, Bool.false_or]
  by_cases hlen : (splitWS line).length = 4
  · rw [if_neg (not_not_intro hlen)]
    have h4 : decide ((splitWS line).length = 4) = true := by
      rw [decide_eq_true_eq]
      exact hlen
    rw [h4, Bool.true_and]
    cases h0 : parseIntToken ((splitWS line).getD 0 "") with
    | none =>
      show (Except.error () : Except Unit ChargerReport).isOk = true ↔ false = true
      simp [Except.isOk, Except.toBool]
    | some cid =>
      cases h1 : parseIntToken ((splitWS line).getD 1 "") with
      | none =>
        show (Except.error () : Except Unit ChargerReport).isOk = true ↔ false = true
        simp [Except.isOk, Except.toBool]
      | some s =>
        cases h2 : parseIntToken ((splitWS line).getD 2 "") with
        | none =>
          show (Except.error () : Except Unit ChargerReport).isOk = true ↔
            false = true
          simp [Except.isOk, Except.toBool]
        | some e =>
          show (if s > e then (Except.error () : Except Unit ChargerReport)
              else Except.ok ⟨cid, s, e,
                ((splitWS line).getD 3 "").toLower == "true"⟩).isOk = true ↔
                decide (s ≤ e) = true
          by_cases hse : s > e
          · rw [if_pos hse]
            constructor
            · intro h
              simp [Except.isOk, Except.toBool] at h
            · intro h
              rw [decide_eq_true_eq] at h
              omega
          · rw [if_neg hse]
            constructor
            · intro _
              rw [decide_eq_true_eq]
              omega
            · intro _
              rfl
  · rw [if_pos hlen]
    have h4 : decide ((splitWS line).length = 4) = false := by
      rw [decide_eq_false_iff_not]
      exact hlen
    rw [h4, Bool.false_and]
    simp [Except.isOk, Except.toBool]


lemma parseReports_ok_iff :
    ∀ (lines : List String) (acc : List (ℤ × List ChargerReport)),
      (parseReports lines acc).isOk = true ↔
        ∀ line ∈ lines, goodReportLine line = true := by
  intro lines
  induction lines with
  | nil =>
    intro acc
    simp [parseReports, Except.isOk, Except.toBool]
  | cons line rest ih =>
    intro acc
    rw [parseReports]
    by_cases hb : line.trim = ""
    · rw [if_pos hb]
      have hgood : goodReportLine line = true := by
        unfold goodReportLine
        rw [show (line.trim == "") = true from by rw [beq_iff_eq]; exact hb]
        rfl
      rw [ih acc]
      simp [hgood]
    · rw [if_neg hb]
      cases hp : parseReportLine line with
      | error e =>
        have hbad : ¬goodReportLine line = true := by
          rw [← parseReportLine_ok_iff hb, hp]
          simp [Except.isOk, Except.toBool]
        simp only [List.forall_mem_cons]
        constructor
        · intro h
          simp [Except.isOk, Except.toBool] at h
        · intro h
          exact absurd h.1 hbad
      | ok r =>
        have hgood : goodReportLine line = true := by
          rw [← parseReportLine_ok_iff hb, hp]
          rfl
        rw [ih]
        simp [hgood]

lemma withReports_ok_iff (rpLines : List String) (st : List (ℤ × List ℤ)) :
    (withReports rpLines st).isOk = true ↔
      ∀ line ∈ rpLines, goodReportLine line = true := by
  unfold withReports
  cases hrp : parseReports rpLines [] with
  | error e =>
    show (Except.error () : Except Unit Calculator).isOk = true ↔
      ∀ line ∈ rpLines, goodReportLine line = true
    constructor
    · intro h
      simp [Except.isOk, Except.toBool] at h
    · intro h
      have h2 := (parseReports_ok_iff rpLines []).mpr h
      rw [hrp] at h2
      simp [Except.isOk, Except.toBool] at h2
  | ok cr =>
    show (Except.ok (⟨st, cr⟩ : Calculator)).isOk = true ↔
      ∀ line ∈ rpLines, goodReportLine line = true
    constructor
    · intro _
      exact (parseReports_ok_iff rpLines []).mp (by rw [hrp]; rfl)
    · intro _
      rfl

lemma parseSections_ok_iff (stLines rpLines : List String) :
    (parseSections stLines rpLines).isOk = true ↔
      ((∀ line ∈ stLines, goodStationLine line = true) ∧
        ∀ line ∈ rpLines, goodReportLine line = true) := by
  unfold parseSections
  cases hst : parseStations stLines [] with
  | error e =>
    show (Except.error () : Except Unit Calculator).isOk = true ↔ _
    constructor
    · intro h
      simp [Except.isOk, Except.toBool] at h
    · intro h
      have h2 := (parseStations_ok_iff stLines []).mpr h.1
      rw [hst] at h2
      simp [Except.isOk, Except.toBool] at h2
  | ok st =>
    show (withReports rpLines st).isOk = true ↔ _
    rw [withReports_ok_iff]
    constructor
    · intro h
      exact ⟨(parseStations_ok_iff stLines []).mp (by rw [hst]; rfl), h⟩
    · intro h
      exact h.2

lemma parse_input_file_ok_iff (f : Option (List String)) :
    (parse_input_file f).isOk = true ↔ structurallyValid f = true := by
  cases f with
  | none =>
    show (Except.error () : Except Unit Calculator).isOk = true ↔ false = true
    simp [Except.isOk, Except.toBool]
  | some content =>
    rw [parse_input_file, structurallyValid]
    cases hss : content.findIdx? (fun l => l == "[Stations]") with
    | none =>
      show (Except.error () : Except Unit Calculator).isOk = true ↔ false = true
      simp [Except.isOk, Except.toBool]
    | some ss =>
      cases hrs : content.findIdx?
          (fun l => l == "[Charger Availability Reports]") with
      | none =>
        show (Except.error () : Except Unit Calculator).isOk = true ↔ false = true
        simp [Except.isOk, Except.toBool]
      | some rs =>
        show (parseSections ((content.drop (ss + 1)).take (rs - (ss + 1)))
            (content.drop (rs + 1))).isOk = true ↔
          (((content.drop (ss + 1)).take (rs - (ss + 1))).all goodStationLine &&
            (content.drop (rs + 1)).all goodReportLine) = true
        rw [parseSections_ok_iff, Bool.and_eq_true, List.all_eq_true,
          List.all_eq_true]

/-! ### Merge idempotence and the state-passing fold -/

/-- When every later interval starts strictly after `cur` ends and the tail is
itself gap-separated, the merge loop copies the list unchanged. -/
lemma mergeAux_of_gaps :
    ∀ (t : List (ℤ × ℤ)) (cur : ℤ × ℤ), (∀ iv ∈ t, cur.2 < iv.1) →
      t.Pairwise (fun p q => p.2 < q.1) → mergeAux cur t = cur :: t := by
  intro t
  induction t with
  | nil =>
    intro cur _ _
    rfl
  | cons iv rest ih =>
    intro cur hcur hp
    have hlt := hcur iv (List.mem_cons_self iv rest)
    rw [mergeAux, if_neg (by omega)]
    rcases List.pairwise_cons.mp hp with ⟨h1, h2⟩
    rw [ih iv h1 h2]

/-- The per-station loop of `calculateStationUptimeS` leaves the threaded
calculator untouched and appends one result per station id. -/
lemma calcS_go (c : Calculator) :
    ∀ (ids : List ℤ) (res : List (ℤ × ℤ)),
      ids.foldl
        (fun acc sid =>
          (acc.1 ++ [(sid, stationResult acc.2
              ((alookup acc.2.station_chargers sid).getD []))],
            acc.2))
        (res, c)
      = (res ++ ids.map (fun sid =>
          (sid, stationResult c ((alookup c.station_chargers sid).getD []))), c) := by
  intro ids
  induction ids with
  | nil =>
    intro res
    simp
  | cons sid rest ih =>
    intro res
    simp only [List.foldl_cons]
    rw [ih, List.map_cons]
    simp

/-! ### The claims -/

/-- C1: the spec (and the comment at line 133 of the source) say reports are
sorted by `(start_time, down-before-up)`, so that at an equal start time the
down report is applied first and the up report last.  The code's key at lines
134-135 is `(x.start_time, not x.is_up)`, which orders the UP report first:
the down report is applied last, and a simultaneous contradictory pair
`(0,100,true)`, `(0,100,false)` on one charger reconciles to no up-interval at
all (station uptime 0), where the specified order would confirm `(0,100)`
(station uptime 100). -/
theorem C1_tie_break_orders_up_first :
    sortReports [⟨1, 0, 100, true⟩, ⟨1, 0, 100, false⟩]
        = [⟨1, 0, 100, true⟩, ⟨1, 0, 100, false⟩] ∧
      sortReportsDownFirst [⟨1, 0, 100, true⟩, ⟨1, 0, 100, false⟩]
        = [⟨1, 0, 100, false⟩, ⟨1, 0, 100, true⟩] ∧
      reconcile (sortReports [⟨1, 0, 100, true⟩, ⟨1, 0, 100, false⟩]) = [] ∧
      reconcile (sortReportsDownFirst [⟨1, 0, 100, true⟩, ⟨1, 0, 100, false⟩])
        = [(0, 100)] ∧
      calculate_station_uptime
          ⟨[(0, [1])], [(1, [⟨1, 0, 100, true⟩, ⟨1, 0, 100, false⟩])]⟩
        = [(0, 0)] := by
  refine ⟨by decide, by decide, by decide, by decide, ?_⟩
  have h : calculate_station_uptime
      ⟨[(0, [1])], [(1, [⟨1, 0, 100, true⟩, ⟨1, 0, 100, false⟩])]⟩
      = [(0, floatPct 0 100)] := rfl
  rw [h, floatPct_zero 100 (by norm_num)]

/-- C2: the spec says the percentage is the exact floor of
`100 × up / total`; the code computes `int((total_up_time / total_time) * 100)`
in binary64 floating point (line 190).  At `up = 29`, `total = 100` the two
roundings make the float product land strictly below 29
(`fl(29/100) * 100` rounds to `28.999999999999996...`), so truncation yields
28, while exact arithmetic, modelled by `truncInt` on the exact rational,
yields 29.  The full pipeline on reports `(0,29,true)`, `(29,100,false)`
therefore prints 28 instead of the specified 29. -/
theorem C2_float_pct_below_exact_floor :
    calculate_station_uptime
        ⟨[(0, [1000])], [(1000, [⟨1000, 0, 29, true⟩, ⟨1000, 29, 100, false⟩])]⟩
      = [(0, 28)] ∧
      truncInt ((29 : ℚ) / 100 * 100) = 29 := by
  constructor
  · have h : calculate_station_uptime
        ⟨[(0, [1000])], [(1000, [⟨1000, 0, 29, true⟩, ⟨1000, 29, 100, false⟩])]⟩
        = [(0, floatPct 29 100)] := rfl
    rw [h, floatPct_29_100]
  · have h1 : (29 : ℚ) / 100 * 100 = ((29 : ℤ) : ℚ) := by norm_num
    rw [h1, truncInt_intCast 29 (by norm_num)]

/-- C3 (amended): adding one report for a member charger moves the station's
percentage monotonically PROVIDED an added up report lies within the station's
current observed window (or the station had no active reports): then an up
report cannot decrease the result, and a down report can never increase it.
The unqualified up half of the original claim is false
(`C3_up_report_can_decrease_pct`): an up report that extends the observed
window dilutes the denominator. -/
theorem C3_addReport_monotone {c : Calculator} {cid : ℤ} {r : ChargerReport}
    {cids : List ℤ} (hwf : ReportsWF c) (hr : r.start_time ≤ r.end_time) :
    (r.is_up = true →
      (activeSorted c cids ≠ [] →
        listMin (startsOf (activeSorted c cids)) ≤ r.start_time ∧
          r.end_time ≤ listMax (endsOf (activeSorted c cids))) →
      stationResult c cids ≤ stationResult (addReport c cid r) cids) ∧
    (r.is_up = false →
      stationResult (addReport c cid r) cids ≤ stationResult c cids) :=
  ⟨fun hu hwin => stationResult_addReport_up_mono hwf hr hu hwin,
    fun hu => stationResult_addReport_down_mono hwf hr hu⟩

theorem C3_addReport_monotone_witness :
    ReportsWF ⟨[(0, [1])], [(1, [⟨1, 0, 10, true⟩])]⟩ ∧
      (2 : ℤ) ≤ 5 ∧
      stationResult ⟨[(0, [1])], [(1, [⟨1, 0, 10, true⟩])]⟩ [1] ≤
        stationResult
          (addReport ⟨[(0, [1])], [(1, [⟨1, 0, 10, true⟩])]⟩ 1 ⟨1, 2, 5, true⟩)
          [1] :=
  ⟨by unfold ReportsWF; decide, by decide,
    (C3_addReport_monotone (by unfold ReportsWF; decide) (by decide)).1
      rfl (by decide)⟩

/-- C3, counterexample to the original claim: the station `0` with one charger
`1` and single report `(0,10,true)` has uptime 100; adding the additional up
report `(90,100,true)` to that charger extends the observed window to
`[0,100]` with only 20 covered units, and the uptime DROPS to 20. -/
theorem C3_up_report_can_decrease_pct :
    stationResult ⟨[(0, [1])], [(1, [⟨1, 0, 10, true⟩])]⟩ [1] = 100 ∧
      stationResult
          (addReport ⟨[(0, [1])], [(1, [⟨1, 0, 10, true⟩])]⟩ 1 ⟨1, 90, 100, true⟩)
          [1] = 20 := by
  constructor
  · have h : stationResult ⟨[(0, [1])], [(1, [⟨1, 0, 10, true⟩])]⟩ [1]
        = floatPct 10 10 := rfl
    rw [h, floatPct_self 10 (by norm_num)]
  · have h : stationResult
        (addReport ⟨[(0, [1])], [(1, [⟨1, 0, 10, true⟩])]⟩ 1 ⟨1, 90, 100, true⟩)
        [1] = floatPct 20 100 := rfl
    rw [h, floatPct_20_100]

/-- C4: processing one down report `(ds, de)` acts on each interval of the
running list independently and in order: an interval `(a, b)` with `b ≤ ds`
or `a ≥ de` is kept; otherwise it contributes `(a, ds)` when `a < ds` and
`(de, b)` when `b > de`, and disappears when it lies inside `[ds, de]`. -/
theorem C4_down_report_splits_each_interval (ds de : ℤ) (ivs : List (ℤ × ℤ)) :
    processDown ds de ivs =
      (ivs.map (fun iv =>
        if iv.2 ≤ ds ∨ iv.1 ≥ de then [iv]
        else
          (if iv.1 < ds then [(iv.1, ds)] else []) ++
            (if iv.2 > de then [(de, iv.2)] else []))).flatten := by
  rw [processDown_eq]
  rfl

/-- C5: when the station has at least one active report and its observed
window degenerates to the single instant `min_time = max_time`, the result is
100 exactly when some reconciled up-interval `(start, end)` of a member
charger satisfies `start ≤ instant ≤ end`, and 0 otherwise — no division by
the window length is involved. -/
theorem C5_instant_window {c : Calculator} {cids : List ℤ}
    (hne : ¬(activeSorted c cids).isEmpty = true)
    (hinst : listMin (startsOf (activeSorted c cids))
      = listMax (endsOf (activeSorted c cids))) :
    stationResult c cids =
      if ∃ iv ∈ stationIntervals (activeSorted c cids),
          iv.1 ≤ listMin (startsOf (activeSorted c cids)) ∧
            listMin (startsOf (activeSorted c cids)) ≤ iv.2
      then 100 else 0 := by
  rw [stationResult, if_neg hne, if_pos hinst]
  by_cases h : ∃ iv ∈ stationIntervals (activeSorted c cids),
      iv.1 ≤ listMin (startsOf (activeSorted c cids)) ∧
        listMin (startsOf (activeSorted c cids)) ≤ iv.2
  · have hany : (stationIntervals (activeSorted c cids)).any (fun iv =>
        decide (iv.1 ≤ listMin (startsOf (activeSorted c cids))) &&
          decide (listMin (startsOf (activeSorted c cids)) ≤ iv.2)) = true := by
      rw [List.any_eq_true]
      obtain ⟨iv, hm, h1, h2⟩ := h
      exact ⟨iv, hm, by
        rw [Bool.and_eq_true, decide_eq_true_eq, decide_eq_true_eq]
        exact ⟨h1, h2⟩⟩
    rw [if_pos hany, if_pos h]
  · have hany : ¬((stationIntervals (activeSorted c cids)).any (fun iv =>
        decide (iv.1 ≤ listMin (startsOf (activeSorted c cids))) &&
          decide (listMin (startsOf (activeSorted c cids)) ≤ iv.2)) = true) := by
      intro hh
      apply h
      rw [List.any_eq_true] at hh
      obtain ⟨iv, hm, hp⟩ := hh
      rw [Bool.and_eq_true, decide_eq_true_eq, decide_eq_true_eq] at hp
      exact ⟨iv, hm, hp⟩
    rw [if_neg hany, if_neg h]

theorem C5_instant_window_witness :
    (¬(activeSorted ⟨[(0, [1])], [(1, [⟨1, 100, 100, true⟩])]⟩ [1]).isEmpty
        = true) ∧
      listMin (startsOf (activeSorted ⟨[(0, [1])],
          [(1, [⟨1, 100, 100, true⟩])]⟩ [1]))
        = listMax (endsOf (activeSorted ⟨[(0, [1])],
          [(1, [⟨1, 100, 100, true⟩])]⟩ [1])) ∧
      stationResult ⟨[(0, [1])], [(1, [⟨1, 100, 100, true⟩])]⟩ [1] =
        if ∃ iv ∈ stationIntervals (activeSorted ⟨[(0, [1])],
            [(1, [⟨1, 100, 100, true⟩])]⟩ [1]),
            iv.1 ≤ listMin (startsOf (activeSorted ⟨[(0, [1])],
              [(1, [⟨1, 100, 100, true⟩])]⟩ [1])) ∧
              listMin (startsOf (activeSorted ⟨[(0, [1])],
                [(1, [⟨1, 100, 100, true⟩])]⟩ [1])) ≤ iv.2
        then 100 else 0 :=
  ⟨by decide, by decide, C5_instant_window (by decide) (by decide)⟩

/-- C6: on two well-formed intervals `(a,b)`, `(c,d)` with `a ≤ c`, the merge
returns the single interval `(a, max b d)` exactly when `c ≤ b` (a touching
endpoint, `c = b`, still merges) and keeps both otherwise; and on any
well-formed input the merge output is strictly separated (`end < next start`)
and sorted. -/
theorem C6_merge_rule {a b c d : ℤ} (hab : a ≤ b) (hcd : c ≤ d) (hac : a ≤ c) :
    (_merge_intervals [(a, b), (c, d)] =
      if c ≤ b then [(a, max b d)] else [(a, b), (c, d)]) ∧
    ∀ l : List (ℤ × ℤ), (∀ iv ∈ l, iv.1 ≤ iv.2) →
      (_merge_intervals l).Pairwise (fun p q => p.2 < q.1) ∧
        List.Sorted tupLE (_merge_intervals l) := by
  constructor
  · by_cases h1 : tupLE (a, b) (c, d)
    · have hs : sortIntervals [(a, b), (c, d)] = [(a, b), (c, d)] := by
        unfold sortIntervals
        simp only [List.insertionSort, List.orderedInsert]
        rw [if_pos h1]
      unfold _merge_intervals
      rw [hs]
      show mergeAux (a, b) [(c, d)]
        = if c ≤ b then [(a, max b d)] else [(a, b), (c, d)]
      rw [mergeAux]
      show (if c ≤ b then mergeAux (a, max b d) [] else (a, b) :: mergeAux (c, d) [])
        = if c ≤ b then [(a, max b d)] else [(a, b), (c, d)]
      by_cases hcb : c ≤ b
      · rw [if_pos hcb, if_pos hcb, mergeAux]
      · rw [if_neg hcb, if_neg hcb, mergeAux]
    · have hfacts : a = c ∧ d < b := by
        simp only [tupLE, not_or, not_and, not_le, not_lt] at h1
        constructor
        · omega
        · exact h1.2 (by omega)
      obtain ⟨ha, hd⟩ := hfacts
      have hs : sortIntervals [(a, b), (c, d)] = [(c, d), (a, b)] := by
        unfold sortIntervals
        simp only [List.insertionSort, List.orderedInsert]
        rw [if_neg h1]
      unfold _merge_intervals
      rw [hs]
      show mergeAux (c, d) [(a, b)]
        = if c ≤ b then [(a, max b d)] else [(a, b), (c, d)]
      rw [mergeAux]
      show (if a ≤ d then mergeAux (c, max d b) [] else (c, d) :: mergeAux (a, b) [])
        = if c ≤ b then [(a, max b d)] else [(a, b), (c, d)]
      rw [if_pos (by omega : a ≤ d), if_pos (by omega : c ≤ b), mergeAux,
        ← ha, max_comm d b]
  · intro l hwf
    refine ⟨merge_pairwise hwf, ?_⟩
    have h2 := merge_wf hwf
    exact List.Pairwise.imp_of_mem
      (fun {p q} hp hq hlt => Or.inl (by have h3 := h2 p hp; omega))
      (merge_pairwise hwf)

theorem C6_merge_rule_witness :
    (0 : ℤ) ≤ 5 ∧ (3 : ℤ) ≤ 10 ∧ (0 : ℤ) ≤ 3 ∧
      ((_merge_intervals [((0 : ℤ), (5 : ℤ)), (3, 10)] =
        if (3 : ℤ) ≤ 5 then [(0, max 5 10)] else [(0, 5), (3, 10)]) ∧
      ∀ l : List (ℤ × ℤ), (∀ iv ∈ l, iv.1 ≤ iv.2) →
        (_merge_intervals l).Pairwise (fun p q => p.2 < q.1) ∧
          List.Sorted tupLE (_merge_intervals l)) :=
  ⟨by decide, by decide, by decide,
    C6_merge_rule (by decide) (by decide) (by decide)⟩

/-- C7: with all stored reports well-formed (`start_time ≤ end_time`, the
invariant the parser enforces), every `(station_id, percentage)` pair that
`calculate_station_uptime` returns has its percentage in `[0, 100]`. -/
theorem C7_results_in_range {c : Calculator} (hwf : ReportsWF c) :
    ∀ p ∈ calculate_station_uptime c, 0 ≤ p.2 ∧ p.2 ≤ 100 := by
  intro p hp
  unfold calculate_station_uptime at hp
  rcases List.mem_map.mp hp with ⟨sid, hsid, rfl⟩
  exact stationResult_bounds hwf _

theorem C7_results_in_range_witness :
    ReportsWF ⟨[(0, [1])], [(1, [⟨1, 0, 100, true⟩])]⟩ ∧
      ∀ p ∈ calculate_station_uptime ⟨[(0, [1])], [(1, [⟨1, 0, 100, true⟩])]⟩,
        0 ≤ p.2 ∧ p.2 ≤ 100 :=
  ⟨by unfold ReportsWF; decide,
    C7_results_in_range (by unfold ReportsWF; decide)⟩

/-- C8: the merge is idempotent — a list that is already sorted and strictly
separated (each interval's start strictly above the previous end) is returned
unchanged by `_merge_intervals`. -/
theorem C8_merge_idempotent {l : List (ℤ × ℤ)} (hs : List.Sorted tupLE l)
    (hgap : l.Pairwise (fun p q => p.2 < q.1)) :
    _merge_intervals l = l := by
  have hsl : sortIntervals l = l := hs.insertionSort_eq
  unfold _merge_intervals
  rw [hsl]
  cases l with
  | nil => rfl
  | cons h t =>
    rcases List.pairwise_cons.mp hgap with ⟨hh, ht⟩
    exact mergeAux_of_gaps t h hh ht

theorem C8_merge_idempotent_witness :
    List.Sorted tupLE [((0 : ℤ), (1 : ℤ)), (3, 4)] ∧
      List.Pairwise (fun p q : ℤ × ℤ => p.2 < q.1) [((0 : ℤ), (1 : ℤ)), (3, 4)] ∧
      _merge_intervals [((0 : ℤ), (1 : ℤ)), (3, 4)] = [(0, 1), (3, 4)] :=
  ⟨by unfold List.Sorted tupLE; decide, by decide,
    C8_merge_idempotent (by unfold List.Sorted tupLE; decide) (by decide)⟩

/-- C9: `parse_input_file` succeeds exactly on structurally valid input — the
file is readable, both section markers present, every nonblank station line
has ≥ 2 integer fields, every nonblank report line exactly 4 fields with
integer ids/times and `start_time ≤ end_time`; on every violation (and only
then) it raises the single generic error. -/
theorem C9_parse_error_iff_invalid (f : Option (List String)) :
    (parse_input_file f).isOk = true ↔ structurallyValid f = true :=
  parse_input_file_ok_iff f

/-- C10: `calculate_station_uptime` never mutates the calculator: the
state-passing embedding returns the state it was given, its result list is
the pure function of that state, and a second call returns the same results. -/
theorem C10_no_state_mutation (c : Calculator) :
    (calculateStationUptimeS c).2 = c ∧
      (calculateStationUptimeS c).1 = calculate_station_uptime c ∧
      (calculateStationUptimeS (calculateStationUptimeS c).2).1
        = (calculateStationUptimeS c).1 := by
  have h2 : (calculateStationUptimeS c).2 = c := by
    rw [calculateStationUptimeS, calcS_go]
  refine ⟨h2, ?_, ?_⟩
  · rw [calculateStationUptimeS, calcS_go, calculate_station_uptime]
    simp
  · rw [h2]

end StationUptime
